import Mathlib

/-!
Shallow embedding of the markdown-sheet core
(`src-tauri/src/markdown_parser.rs`): pipe-table parsing, serialization
and document rebuilding, together with proofs of the specified
properties.  Lines and cells are modelled as `List Char`; Rust `&str`
operations (`trim`, `split`, `strip_prefix`, `strip_suffix`, `lines`)
are modelled by executable list functions below.
-/

namespace MarkdownSheet

/-- Rust `char::is_whitespace` (restricted to the ASCII whitespace that
can actually occur in the inputs we reason about). -/
def isWs (c : Char) : Bool := c.isWhitespace

/-- Rust `str::trim`: drop whitespace from both ends. -/
def trimC (l : List Char) : List Char :=
  ((l.dropWhile isWs).reverse.dropWhile isWs).reverse

/-- Helper for `splitOnC`: the first piece and the remaining pieces. -/
def splitOnCP (c : Char) : List Char → List Char × List (List Char)
  | [] => ([], [])
  | x :: xs =>
    let r := splitOnCP c xs
    if x = c then ([], r.1 :: r.2) else (x :: r.1, r.2)

/-- Rust `str::split(c)`: split on every occurrence of `c`; always
returns at least one (possibly empty) piece. -/
def splitOnC (c : Char) (l : List Char) : List (List Char) :=
  (splitOnCP c l).1 :: (splitOnCP c l).2

/-- Rust `str::strip_prefix('|')`. -/
def dropPipeFront : List Char → Option (List Char)
  | x :: t => if x = '|' then some t else none
  | [] => none

/-- Rust `str::strip_suffix('|')`. -/
def dropPipeBack (l : List Char) : Option (List Char) :=
  if l.getLast? = some '|' then some l.dropLast else none

/-- The shared pipe-stripping step of `parse_row`, `is_separator_line`
and `parse_alignments`:
`trimmed.strip_prefix('|').unwrap_or(trimmed).strip_suffix('|').unwrap_or(trimmed)`.
Note that when the suffix strip fails the fallback is the *original*
trimmed line (not the prefix-stripped one). -/
def innerOf (t : List Char) : List Char :=
  (dropPipeBack ((dropPipeFront t).getD t)).getD t

/-- `parse_row`: trim the line, strip surrounding pipes (via `innerOf`),
split on `'|'` and trim every piece. -/
def parse_row (line : List Char) : List (List Char) :=
  (splitOnC '|' (innerOf (trimC line))).map trimC

/-- A separator cell: non-empty and consisting only of `'-'` and `':'`. -/
def sepCellB (c : List Char) : Bool :=
  !c.isEmpty && c.all fun ch => ch = '-' || ch = ':'

/-- `is_separator_line`: the line contains `'|'` and every cell obtained
by the shared stripping/splitting is a separator cell after trimming. -/
def is_separator_line (line : List Char) : Bool :=
  if !(trimC line).contains '|' then false
  else (splitOnC '|' (innerOf (trimC line))).all fun cell => sepCellB (trimC cell)

/-- `parse_alignments`: per separator cell, `center` / `right` / `left`
by the position of the colons, `none` otherwise. -/
def parse_alignments (line : List Char) : List String :=
  (splitOnC '|' (innerOf (trimC line))).map fun cell =>
    let c := trimC cell
    let left := c.head? == some ':'
    let right := c.getLast? == some ':'
    match left, right with
    | true, true => "center"
    | false, true => "right"
    | true, false => "left"
    | _, _ => "none"

/-- `is_table_line`: trimmed line is non-empty and contains a pipe. -/
def is_table_line (line : List Char) : Bool :=
  !(trimC line).isEmpty && (trimC line).contains '|'

/-- One detected table (`struct MarkdownTable`). -/
structure MarkdownTable where
  heading : Option (List Char)
  headers : List (List Char)
  alignments : List String
  rows : List (List (List Char))
  start_line : Nat
  end_line : Nat
deriving Repr, DecidableEq, Inhabited

/-- The full parse result (`struct ParsedDocument`). -/
structure ParsedDocument where
  lines : List (List Char)
  tables : List MarkdownTable
deriving Repr, DecidableEq, Inhabited

/-- `row.resize(n, String::new()); row.truncate(n)`: make the row exactly
`n` cells, padding with empty cells or truncating. -/
def resizeRow (n : Nat) (row : List (List Char)) : List (List Char) :=
  row.take n ++ List.replicate (n - row.length) []

/-- The inner body-row loop of `parse_markdown`: consume lines while they
are table lines and not separator lines, returning the normalized rows
and the remaining suffix of the document. -/
def collectRowsL (n : Nat) : List (List Char) → List (List (List Char)) × List (List Char)
  | [] => ([], [])
  | l :: rest =>
    if is_table_line l && !is_separator_line l then
      let cr := collectRowsL n rest
      (resizeRow n (parse_row l) :: cr.1, cr.2)
    else ([], l :: rest)

/-- `trimmed.starts_with('#')`. -/
def startsHash (t : List Char) : Bool := t.head? == some '#'

/-- `trimmed.trim_start_matches('#').trim()`: the heading text. -/
def headingText (t : List Char) : List Char := trimC (t.dropWhile (· == '#'))

/-- The main scanning loop of `parse_markdown`, written structurally on
a fuel bound for the number of remaining lines; `i` is the absolute
index of the first line of the suffix and `h` the currently tracked
heading.  With fuel at least the length of the line list the fuel never
runs out (`scanF_fuel_irrel`). -/
def scanF : Nat → List (List Char) → Nat → Option (List Char) → List MarkdownTable
  | 0, _, _, _ => []
  | _ + 1, [], _, _ => []
  | fuel + 1, l :: rest, i, h =>
    if startsHash (trimC l) then
      scanF fuel rest (i + 1) (some (headingText (trimC l)))
    else
      match rest with
      | [] => []
      | l1 :: rest2 =>
        if is_table_line l && is_separator_line l1 then
          let headers := parse_row l
          let cr := collectRowsL headers.length rest2
          { heading := h, headers := headers,
            alignments := parse_alignments l1, rows := cr.1,
            start_line := i, end_line := i + 1 + cr.1.length }
            :: scanF fuel cr.2 (i + 2 + cr.1.length) h
        else scanF fuel rest (i + 1) h

/-- The scanning loop, run with enough fuel for the whole line list. -/
def scanA (ls : List (List Char)) (i : Nat) (h : Option (List Char)) :
    List MarkdownTable :=
  scanF ls.length ls i h

/-- One trailing `'\r'` is stripped from each line by Rust `str::lines`. -/
def stripCR (l : List Char) : List Char :=
  if l.getLast? = some '\r' then l.dropLast else l

/-- Rust `str::lines`: split on `'\n'`, drop the final empty piece (the
final line ending is optional), strip one trailing `'\r'` per line. -/
def linesOf (content : List Char) : List (List Char) :=
  (if (splitOnC '\n' content).getLast? = some [] then (splitOnC '\n' content).dropLast
    else splitOnC '\n' content).map stripCR

/-- `parse_markdown`. -/
def parse_markdown (content : List Char) : ParsedDocument :=
  { lines := linesOf content, tables := scanA (linesOf content) 0 none }

/-- Left-justified padding to width `w` (Rust `format!("{:<w$}")`). -/
def padTo (w : Nat) (s : List Char) : List Char :=
  s ++ List.replicate (w - s.length) ' '

/-- The body of one rendered cell, `format!(" {:<w$} |", s)` without its
final pipe. -/
def cellBody (w : Nat) (s : List Char) : List Char :=
  ' ' :: padTo w s ++ [' ']

/-- Concatenate pieces, terminating each with `c`. -/
def joinTerm (c : Char) (ls : List (List Char)) : List Char :=
  (ls.map (· ++ [c])).flatten

/-- The rendered header row. -/
def headerLine (headers : List (List Char)) (widths : List Nat) : List Char :=
  '|' :: joinTerm '|' (headers.enum.map fun p => cellBody (widths.getD p.1 3) p.2)

/-- The body of one rendered separator cell (without its final pipe):
the alignment-dependent dash pattern of `serialize_table`. -/
def sepBody (w : Nat) (a : String) : List Char :=
  match a with
  | "left" => ':' :: List.replicate w '-' ++ ['-']
  | "right" => ' ' :: List.replicate w '-' ++ [':']
  | "center" => ':' :: List.replicate w '-' ++ [':']
  | _ => ' ' :: List.replicate w '-' ++ ['-']

/-- The rendered separator row. -/
def sepLine (n : Nat) (widths : List Nat) (aligns : List String) : List Char :=
  '|' :: joinTerm '|'
    ((List.range n).map fun ci => sepBody (widths.getD ci 3) (aligns.getD ci "none"))

/-- The rendered body row. -/
def rowLine (n : Nat) (widths : List Nat) (row : List (List Char)) : List Char :=
  '|' :: joinTerm '|'
    ((List.range n).map fun ci => cellBody (widths.getD ci 3) (row.getD ci []))

/-- One pass of the width-update loop: pointwise max of the current
widths with the row's cell lengths (cells beyond the column count are
ignored). -/
def updateRowW : List Nat → List (List Char) → List Nat
  | [], _ => []
  | ws, [] => ws
  | w :: ws, c :: cs => max w c.length :: updateRowW ws cs

/-- Per-column display widths: headers floored at 3, then maxed with
every row's cell lengths. -/
def widthsOf (t : MarkdownTable) : List Nat :=
  t.rows.foldl updateRowW (t.headers.map fun h => max h.length 3)

/-- The lines emitted by `serialize_table`, in order. -/
def serializeLines (t : MarkdownTable) : List (List Char) :=
  headerLine t.headers (widthsOf t)
    :: sepLine t.headers.length (widthsOf t) t.alignments
    :: t.rows.map (rowLine t.headers.length (widthsOf t))

/-- `serialize_table`: every emitted line is followed by a newline. -/
def serialize_table (t : MarkdownTable) : List Char :=
  joinTerm '\n' (serializeLines t)

/-- The splicing loop of `rebuild_document`: verbatim lines up to each
table's `start_line`, the rendered table, resuming after `end_line`. -/
def rebuildAux (ls : List (List Char)) (c : Nat) : List MarkdownTable → List Char
  | [] => joinTerm '\n' (ls.drop c)
  | t :: ts =>
    joinTerm '\n' ((ls.drop c).take (t.start_line - c))
      ++ serialize_table t ++ rebuildAux ls (t.end_line + 1) ts

/-- `original_lines.last().map_or(false, |l| l.is_empty())`. -/
def lastIsEmpty (ls : List (List Char)) : Bool :=
  match ls.getLast? with
  | some l => l.isEmpty
  | none => false

/-- `rebuild_document`: join unchanged if there are no tables, else
splice and trim one trailing newline unless the original ended in a
blank line. -/
def rebuild_document (ls : List (List Char)) (ts : List MarkdownTable) : List Char :=
  if ts.isEmpty then List.intercalate ['\n'] ls
  else
    let r := rebuildAux ls 0 ts
    if r.getLast? == some '\n' && !lastIsEmpty ls then r.dropLast else r

/-! ### Spec-described variants of the row tokenizer

The claims C2 and C3 describe the leading/trailing pipe strips as
independent of each other: the trailing strip is applied to the result
of the leading strip, and a failed trailing strip leaves that result
unchanged.  These definitions follow the claims' words, for comparison
with the source-derived `innerOf`. -/

/-- Claim-described stripping: strip one leading pipe if present, then
strip one trailing pipe from that result if present. -/
def innerSpec (t : List Char) : List Char :=
  (dropPipeBack ((dropPipeFront t).getD t)).getD ((dropPipeFront t).getD t)

/-- Claim-described `parse_row` (independent pipe strips). -/
def parse_row_spec (line : List Char) : List (List Char) :=
  (splitOnC '|' (innerSpec (trimC line))).map trimC

/-- Claim-described `is_separator_line` (independent pipe strips). -/
def is_separator_line_spec (line : List Char) : Bool :=
  if !(trimC line).contains '|' then false
  else (splitOnC '|' (innerSpec (trimC line))).all fun cell => sepCellB (trimC cell)

/-! ### C10: total rendering, out-of-range normalization -/

/-- Canonical alignment value: the three recognized names, all else
is rendered like `"none"`. -/
def canonAlign (a : String) : String :=
  if a = "left" ∨ a = "right" ∨ a = "center" then a else "none"

/-- A row reshaped to exactly `n` cells (missing cells empty, extra
cells dropped). -/
def normRow (n : Nat) (r : List (List Char)) : List (List Char) :=
  r.take n ++ List.replicate (n - r.length) []

/-- The normalization described by C10: alignments truncated/padded to
the column count and canonicalized, rows truncated/padded to the column
count; everything else unchanged. -/
def normalizeTable (t : MarkdownTable) : MarkdownTable :=
  { t with
    alignments := (t.alignments.take t.headers.length
      ++ List.replicate (t.headers.length - t.alignments.length) "none").map canonAlign,
    rows := t.rows.map (normRow t.headers.length) }

/-! ### C8: heading association -/

/-- The text of the nearest line before position `s` whose trimmed form
starts with `'#'` (searching downward from `s - 1`), with the leading
`'#'` run and surrounding whitespace stripped; `none` if no such line
exists.  This formalizes the claim's words. -/
def nearestHeadingBefore (ls : List (List Char)) : Nat → Option (List Char)
  | 0 => none
  | s + 1 =>
    if startsHash (trimC (ls.getD s [])) then some (headingText (trimC (ls.getD s [])))
    else nearestHeadingBefore ls s

/-! ### The rebuilt document as a list of lines -/

/-- The lines of the rebuilt document from cursor `c` on, given the
remaining (original) lines from position `c` and the remaining tables:
verbatim lines up to each table's `start_line`, then the rendered table
lines, resuming after `end_line`. -/
def rebuiltTail : List (List Char) → Nat → List MarkdownTable → List (List Char)
  | rest, _, [] => rest
  | rest, c, t :: ts =>
    rest.take (t.start_line - c) ++ serializeLines t
      ++ rebuiltTail (rest.drop (t.end_line + 1 - c)) (t.end_line + 1) ts

/-- Wellformedness of a table list relative to a cursor: each table
starts at or after the cursor, spans at least two lines, and the next
tables are wellformed after its end. -/
def WFt : Nat → List MarkdownTable → Prop
  | _, [] => True
  | c, t :: ts => c ≤ t.start_line ∧ t.start_line + 1 ≤ t.end_line ∧ WFt (t.end_line + 1) ts

/-! ### Trim-congruence of the scanner -/

/-- Two lines are scan-equivalent when their trims agree; every
classifier and tokenizer of the scanner factors through `trimC`. -/
def trimEq (a b : List Char) : Prop := trimC a = trimC b

theorem collectRowsL_snd_length_le (n : Nat) (ls : List (List Char)) :
    (collectRowsL n ls).2.length ≤ ls.length := by
  induction ls with
  | nil => simp [collectRowsL]
  | cons l rest ih =>
    simp only [collectRowsL]
    split
    · simpa using Nat.le_succ_of_le ih
    · simp

theorem scanF_nil (f i : Nat) (h : Option (List Char)) : scanF f [] i h = [] := by
  cases f <;> rfl

theorem scanF_fuel_irrel (f : Nat) :
    ∀ (g : Nat) (ls : List (List Char)) (i : Nat) (h : Option (List Char)),
      ls.length ≤ f → ls.length ≤ g → scanF f ls i h = scanF g ls i h := by
  induction f with
  | zero =>
    intro g ls i h hf _
    rw [List.length_eq_zero.mp (Nat.le_zero.mp hf), scanF_nil, scanF_nil]
  | succ f ih =>
    intro g ls i h hf hg
    match ls, g with
    | [], g => rw [scanF_nil, scanF_nil]
    | l :: rest, g + 1 =>
      simp only [List.length_cons, Nat.add_le_add_iff_right] at hf hg
      simp only [scanF]
      by_cases hh : startsHash (trimC l) = true
      · simp only [hh, if_true]
        exact ih g rest _ _ hf hg
      · simp only [hh, Bool.false_eq_true, if_false]
        match rest with
        | [] => rfl
        | l1 :: rest2 =>
          simp only [List.length_cons] at hf hg
          by_cases hts : (is_table_line l && is_separator_line l1) = true
          · simp only [hts, if_true]
            have hle := collectRowsL_snd_length_le (parse_row l).length rest2
            exact congrArg _
              (ih g (collectRowsL (parse_row l).length rest2).2 _ _ (by omega) (by omega))
          · simp only [hts, Bool.false_eq_true, if_false]
            exact ih g (l1 :: rest2) _ _ (by simp only [List.length_cons]; omega)
              (by simp only [List.length_cons]; omega)

theorem scanA_nil (i : Nat) (h : Option (List Char)) : scanA [] i h = [] := rfl

/-- Unfolding of the heading branch of the scan. -/
theorem scanA_hash (l : List Char) (rest : List (List Char)) (i : Nat)
    (h : Option (List Char)) (hh : startsHash (trimC l) = true) :
    scanA (l :: rest) i h = scanA rest (i + 1) (some (headingText (trimC l))) := by
  simp only [scanA, List.length_cons, scanF, hh, if_true]

/-- A final line that is not a heading yields nothing. -/
theorem scanA_last (l : List Char) (i : Nat) (h : Option (List Char))
    (hh : startsHash (trimC l) = false) : scanA [l] i h = [] := by
  simp only [scanA, List.length_cons, scanF, hh]
  rfl

/-- Unfolding of the table-detection branch of the scan. -/
theorem scanA_table (l l1 : List Char) (rest2 : List (List Char)) (i : Nat)
    (h : Option (List Char)) (hh : startsHash (trimC l) = false)
    (ht : is_table_line l = true) (hs : is_separator_line l1 = true) :
    scanA (l :: l1 :: rest2) i h =
      { heading := h, headers := parse_row l,
        alignments := parse_alignments l1,
        rows := (collectRowsL (parse_row l).length rest2).1,
        start_line := i,
        end_line := i + 1 + (collectRowsL (parse_row l).length rest2).1.length }
        :: scanA (collectRowsL (parse_row l).length rest2).2
            (i + 2 + (collectRowsL (parse_row l).length rest2).1.length) h := by
  have hle := collectRowsL_snd_length_le (parse_row l).length rest2
  simp only [scanA, List.length_cons, scanF, hh, Bool.false_eq_true, if_false, ht, hs,
    Bool.and_self, if_true]
  exact congrArg _ (scanF_fuel_irrel _ _ _ _ _ (by omega) (by omega))

/-- Unfolding of the skip branch of the scan. -/
theorem scanA_skip (l l1 : List Char) (rest2 : List (List Char)) (i : Nat)
    (h : Option (List Char)) (hh : startsHash (trimC l) = false)
    (hts : (is_table_line l && is_separator_line l1) = false) :
    scanA (l :: l1 :: rest2) i h = scanA (l1 :: rest2) (i + 1) h := by
  simp only [scanA, List.length_cons, scanF, hh, Bool.false_eq_true, if_false, hts]

/-! ### Splitting and joining infrastructure -/

theorem splitOnC_ne_nil (c : Char) (l : List Char) : splitOnC c l ≠ [] := by
  simp [splitOnC]

theorem splitOnC_cons_self (c : Char) (xs : List Char) :
    splitOnC c (c :: xs) = [] :: splitOnC c xs := by
  simp [splitOnC, splitOnCP]

theorem splitOnC_cons_ne (c x : Char) (xs : List Char) (h : ¬x = c) :
    splitOnC c (x :: xs) = (x :: (splitOnCP c xs).1) :: (splitOnCP c xs).2 := by
  simp [splitOnC, splitOnCP, h]

theorem not_mem_of_mem_splitOnC {c : Char} {l : List Char} :
    ∀ p ∈ splitOnC c l, c ∉ p := by
  induction l with
  | nil =>
    intro p hp
    simp only [splitOnC, splitOnCP, List.mem_singleton] at hp
    simp [hp]
  | cons x xs ih =>
    intro p hp
    by_cases hx : x = c
    · subst hx
      rw [splitOnC_cons_self] at hp
      rcases List.mem_cons.mp hp with rfl | hp
      · simp
      · exact ih p hp
    · rw [splitOnC_cons_ne c x xs hx] at hp
      rcases List.mem_cons.mp hp with rfl | hp
      · intro hc
        rcases List.mem_cons.mp hc with rfl | hc
        · exact hx rfl
        · exact ih (splitOnCP c xs).1 (List.mem_cons_self _ _) hc
      · exact ih p (List.mem_cons_of_mem _ hp)

theorem mem_of_mem_splitOnC {c : Char} {l : List Char} :
    ∀ p ∈ splitOnC c l, ∀ a ∈ p, a ∈ l := by
  induction l with
  | nil =>
    intro p hp
    simp only [splitOnC, splitOnCP, List.mem_singleton] at hp
    simp [hp]
  | cons x xs ih =>
    intro p hp a ha
    by_cases hx : x = c
    · subst hx
      rw [splitOnC_cons_self] at hp
      rcases List.mem_cons.mp hp with rfl | hp
      · simp at ha
      · exact List.mem_cons_of_mem x (ih p hp a ha)
    · rw [splitOnC_cons_ne c x xs hx] at hp
      rcases List.mem_cons.mp hp with rfl | hp
      · rcases List.mem_cons.mp ha with rfl | ha
        · exact List.mem_cons_self a _
        · exact List.mem_cons_of_mem x (ih (splitOnCP c xs).1 (List.mem_cons_self _ _) a ha)
      · exact List.mem_cons_of_mem x (ih p (List.mem_cons_of_mem _ hp) a ha)

theorem splitOnC_eq_single {c : Char} {l : List Char} (h : c ∉ l) :
    splitOnC c l = [l] := by
  induction l with
  | nil => rfl
  | cons x xs ih =>
    have hx : ¬x = c := fun he => h (he ▸ List.mem_cons_self x xs)
    have hxs : c ∉ xs := fun hc => h (List.mem_cons_of_mem x hc)
    have h2 := ih hxs
    simp only [splitOnC, List.cons.injEq] at h2
    rw [splitOnC_cons_ne c x xs hx, h2.1, h2.2]

theorem splitOnC_append_cons (c : Char) (p rest : List Char) (h : c ∉ p) :
    splitOnC c (p ++ c :: rest) = p :: splitOnC c rest := by
  induction p with
  | nil => simpa using splitOnC_cons_self c rest
  | cons x xs ih =>
    have hx : ¬x = c := fun he => h (he ▸ List.mem_cons_self x xs)
    have hxs : c ∉ xs := fun hc => h (List.mem_cons_of_mem x hc)
    have h2 := ih hxs
    simp only [splitOnC, List.cons.injEq] at h2
    rw [List.cons_append, splitOnC_cons_ne c x _ hx, h2.1, h2.2]
    rfl

theorem joinTerm_nil (c : Char) : joinTerm c [] = [] := rfl

theorem joinTerm_cons (c : Char) (p : List Char) (ls : List (List Char)) :
    joinTerm c (p :: ls) = p ++ c :: joinTerm c ls := by
  simp [joinTerm]

theorem joinTerm_ne_nil (c : Char) (p : List Char) (ls : List (List Char)) :
    joinTerm c (p :: ls) ≠ [] := by
  rw [joinTerm_cons]
  simp

theorem splitOnC_joinTerm_append (c : Char) (ls : List (List Char)) (tail : List Char)
    (h : ∀ p ∈ ls, c ∉ p) :
    splitOnC c (joinTerm c ls ++ tail) = ls ++ splitOnC c tail := by
  induction ls with
  | nil => simp [joinTerm_nil]
  | cons p ls ih =>
    rw [joinTerm_cons, List.append_assoc, List.cons_append,
      splitOnC_append_cons c p _ (h p (List.mem_cons_self p ls)),
      ih fun q hq => h q (List.mem_cons_of_mem p hq)]
    rfl

theorem splitOnC_joinTerm (c : Char) (ls : List (List Char)) (h : ∀ p ∈ ls, c ∉ p) :
    splitOnC c (joinTerm c ls) = ls ++ [[]] := by
  have := splitOnC_joinTerm_append c ls [] h
  rwa [List.append_nil] at this

theorem intercalateC_nil (s : List Char) : List.intercalate s ([] : List (List Char)) = [] := rfl

theorem intercalateC_single (s a : List Char) : List.intercalate s [a] = a := by
  simp [List.intercalate, List.intersperse]

theorem intercalateC_cons₂ (s a b : List Char) (t : List (List Char)) :
    List.intercalate s (a :: b :: t) = a ++ s ++ List.intercalate s (b :: t) := by
  simp [List.intercalate, List.intersperse]

theorem dropLast_joinTerm (c : Char) (ls : List (List Char)) (h : ls ≠ []) :
    (joinTerm c ls).dropLast = List.intercalate [c] ls := by
  induction ls with
  | nil => exact absurd rfl h
  | cons p ls ih =>
    cases ls with
    | nil =>
      rw [joinTerm_cons, joinTerm_nil, intercalateC_single]
      simp
    | cons q ls2 =>
      rw [joinTerm_cons, intercalateC_cons₂, show p ++ c :: joinTerm c (q :: ls2)
          = (p ++ [c]) ++ joinTerm c (q :: ls2) by simp,
        List.dropLast_append_of_ne_nil _ (joinTerm_ne_nil c q ls2),
        ih (by simp)]

theorem splitOnC_intercalate (c : Char) (ls : List (List Char)) (h : ls ≠ [])
    (hp : ∀ p ∈ ls, c ∉ p) : splitOnC c (List.intercalate [c] ls) = ls := by
  induction ls with
  | nil => exact absurd rfl h
  | cons p ls ih =>
    cases ls with
    | nil => rw [intercalateC_single, splitOnC_eq_single (hp p (List.mem_cons_self p []))]
    | cons q ls2 =>
      rw [intercalateC_cons₂, List.append_assoc, List.singleton_append,
        splitOnC_append_cons c p _ (hp p (List.mem_cons_self p _)),
        ih (by simp) fun r hr => hp r (List.mem_cons_of_mem p hr)]

theorem joinTerm_getLast? (c : Char) (ls : List (List Char)) (h : ls ≠ []) :
    (joinTerm c ls).getLast? = some c := by
  induction ls with
  | nil => exact absurd rfl h
  | cons p ls ih =>
    cases ls with
    | nil =>
      rw [joinTerm_cons, joinTerm_nil]
      exact List.getLast?_concat p
    | cons q ls2 =>
      rw [joinTerm_cons, show p ++ c :: joinTerm c (q :: ls2)
          = (p ++ [c]) ++ joinTerm c (q :: ls2) by simp,
        List.getLast?_append, ih (by simp)]
      rfl

/-! ### Trimming infrastructure -/

theorem dropWhile_eq_self_of_head {p : Char → Bool} {l : List Char}
    (h : ∀ a, l.head? = some a → p a = false) : l.dropWhile p = l := by
  cases l with
  | nil => rfl
  | cons x xs =>
    rw [List.dropWhile_cons, h x rfl]
    simp

theorem trimC_eq_self_of {l : List Char}
    (h1 : ∀ a, l.head? = some a → isWs a = false)
    (h2 : ∀ a, l.getLast? = some a → isWs a = false) : trimC l = l := by
  unfold trimC
  rw [dropWhile_eq_self_of_head h1,
    dropWhile_eq_self_of_head fun a ha => h2 a (by rwa [List.head?_reverse] at ha),
    List.reverse_reverse]

theorem dropWhile_ws_append {sp l : List Char} (hsp : ∀ a ∈ sp, isWs a = true) :
    (sp ++ l).dropWhile isWs = l.dropWhile isWs := by
  induction sp with
  | nil => rfl
  | cons x xs ih =>
    rw [List.cons_append, List.dropWhile_cons, hsp x (List.mem_cons_self x xs)]
    simp only [if_true]
    exact ih fun a ha => hsp a (List.mem_cons_of_mem x ha)

theorem dropWhile_ws_all {sp : List Char} (hsp : ∀ a ∈ sp, isWs a = true) :
    sp.dropWhile isWs = [] :=
  List.dropWhile_eq_nil_iff.mpr hsp

theorem trimC_append_ws_left {sp l : List Char} (hsp : ∀ a ∈ sp, isWs a = true) :
    trimC (sp ++ l) = trimC l := by
  unfold trimC
  rw [dropWhile_ws_append hsp]

theorem trimC_append_ws_right {l sp : List Char} (hsp : ∀ a ∈ sp, isWs a = true) :
    trimC (l ++ sp) = trimC l := by
  unfold trimC
  rw [List.dropWhile_append]
  cases h : l.dropWhile isWs with
  | nil =>
    simp only [List.isEmpty_nil, if_true]
    rw [dropWhile_ws_all hsp]
  | cons m ms =>
    simp only [List.isEmpty_cons, Bool.false_eq_true, if_false, List.reverse_append]
    rw [dropWhile_ws_append (by simpa using hsp)]

theorem trimC_ws_around {sp1 sp2 l : List Char} (h1 : ∀ a ∈ sp1, isWs a = true)
    (h2 : ∀ a ∈ sp2, isWs a = true) : trimC (sp1 ++ l ++ sp2) = trimC l := by
  rw [List.append_assoc, trimC_append_ws_left h1, trimC_append_ws_right h2]

theorem getLast?_dropWhile {p : Char → Bool} {l : List Char}
    (h : l.dropWhile p ≠ []) : (l.dropWhile p).getLast? = l.getLast? := by
  induction l with
  | nil => rfl
  | cons x xs ih =>
    rw [List.dropWhile_cons]
    by_cases hx : p x = true
    · rw [if_pos hx]
      have hxs : xs.dropWhile p ≠ [] := by
        intro he
        apply h
        rw [List.dropWhile_cons, if_pos hx, he]
      rw [ih hxs]
      cases xs with
      | nil => simp [List.dropWhile] at hxs
      | cons y ys => rw [List.getLast?_cons_cons]
    · rw [if_neg hx]

theorem head?_trimC_not_ws {l : List Char} :
    ∀ a, (trimC l).head? = some a → isWs a = false := by
  intro a ha
  unfold trimC at ha
  rw [List.head?_reverse] at ha
  have hne : (l.dropWhile isWs).reverse.dropWhile isWs ≠ [] := by
    intro he
    rw [he] at ha
    simp at ha
  rw [getLast?_dropWhile hne, List.getLast?_reverse] at ha
  have := List.head?_dropWhile_not isWs l
  rw [ha] at this
  exact this

theorem getLast?_trimC_not_ws {l : List Char} :
    ∀ a, (trimC l).getLast? = some a → isWs a = false := by
  intro a ha
  unfold trimC at ha
  rw [List.getLast?_reverse] at ha
  have := List.head?_dropWhile_not isWs (l.dropWhile isWs).reverse
  rw [ha] at this
  exact this

theorem trimC_idem (l : List Char) : trimC (trimC l) = trimC l :=
  trimC_eq_self_of head?_trimC_not_ws getLast?_trimC_not_ws

theorem mem_trimC_subset {l : List Char} : ∀ a ∈ trimC l, a ∈ l := by
  intro a ha
  unfold trimC at ha
  rw [List.mem_reverse] at ha
  have h1 := (List.dropWhile_sublist (l := (l.dropWhile isWs).reverse) isWs).subset ha
  rw [List.mem_reverse] at h1
  exact (List.dropWhile_sublist isWs).subset h1

/-! ### Facts about `parse_row` cells -/

theorem parse_row_ne_nil (line : List Char) : parse_row line ≠ [] := by
  unfold parse_row splitOnC
  simp

theorem parse_row_trim_stable (line : List Char) :
    ∀ cll ∈ parse_row line, trimC cll = cll := by
  intro cll h
  obtain ⟨p, _, rfl⟩ := List.mem_map.mp h
  exact trimC_idem p

theorem dropPipeFront_eq_some {t u : List Char} (h : dropPipeFront t = some u) :
    t = '|' :: u := by
  cases t with
  | nil => simp [dropPipeFront] at h
  | cons x xs =>
    simp only [dropPipeFront] at h
    by_cases hx : x = '|'
    · rw [if_pos hx] at h
      rw [hx, Option.some.inj h]
    · rw [if_neg hx] at h
      cases h

theorem dropPipeBack_eq_some {l u : List Char} (h : dropPipeBack l = some u) :
    u = l.dropLast ∧ l.getLast? = some '|' := by
  unfold dropPipeBack at h
  split at h
  · next hg => exact ⟨(Option.some.injEq .. ▸ h).symm, hg⟩
  · cases h

theorem mem_innerOf_subset {t : List Char} : ∀ a ∈ innerOf t, a ∈ t := by
  intro a ha
  unfold innerOf at ha
  cases hf : dropPipeFront t with
  | none =>
    rw [hf] at ha
    simp only [Option.getD_none] at ha
    cases hb : dropPipeBack t with
    | none =>
      rw [hb] at ha
      simpa using ha
    | some u =>
      rw [hb] at ha
      simp only [Option.getD_some] at ha
      rw [(dropPipeBack_eq_some hb).1] at ha
      exact (List.dropLast_sublist _).subset ha
  | some u =>
    rw [hf] at ha
    simp only [Option.getD_some] at ha
    have ht := dropPipeFront_eq_some hf
    cases hb : dropPipeBack u with
    | none =>
      rw [hb] at ha
      simpa using ha
    | some v =>
      rw [hb] at ha
      simp only [Option.getD_some] at ha
      rw [(dropPipeBack_eq_some hb).1] at ha
      exact ht ▸ List.mem_cons_of_mem _ ((List.dropLast_sublist _).subset ha)

theorem parse_row_no_pipe (line : List Char) :
    ∀ cll ∈ parse_row line, ('|' : Char) ∉ cll := by
  intro cll h hc
  obtain ⟨p, hp, rfl⟩ := List.mem_map.mp h
  exact not_mem_of_mem_splitOnC p hp (mem_trimC_subset _ hc)

theorem mem_parse_row_mem_line (line : List Char) :
    ∀ cll ∈ parse_row line, ∀ a ∈ cll, a ∈ line := by
  intro cll h a ha
  obtain ⟨p, hp, rfl⟩ := List.mem_map.mp h
  exact mem_trimC_subset _
    (mem_innerOf_subset _ (mem_of_mem_splitOnC p hp a (mem_trimC_subset _ ha)))

/-! ### Rendered pipe-lines -/

theorem pipeLine_getLast? (bodies : List (List Char)) :
    ('|' :: joinTerm '|' bodies).getLast? = some '|' := by
  cases bodies with
  | nil => rfl
  | cons b bs =>
    rw [List.getLast?_cons, joinTerm_getLast? '|' (b :: bs) (by simp)]
    rfl

theorem trimC_pipeLine (bodies : List (List Char)) :
    trimC ('|' :: joinTerm '|' bodies) = '|' :: joinTerm '|' bodies := by
  apply trimC_eq_self_of
  · intro a ha
    simp only [List.head?_cons, Option.some.injEq] at ha
    subst ha
    decide
  · intro a ha
    rw [pipeLine_getLast? bodies] at ha
    cases ha
    decide

theorem innerOf_pipeLine (bodies : List (List Char)) (h : bodies ≠ []) :
    innerOf ('|' :: joinTerm '|' bodies) = List.intercalate ['|'] bodies := by
  unfold innerOf
  have h1 : dropPipeFront ('|' :: joinTerm '|' bodies) = some (joinTerm '|' bodies) := rfl
  rw [h1]
  simp only [Option.getD_some]
  unfold dropPipeBack
  rw [if_pos (joinTerm_getLast? '|' bodies h)]
  simp only [Option.getD_some]
  exact dropLast_joinTerm '|' bodies h

theorem parse_row_pipeLine (bodies : List (List Char)) (h : bodies ≠ [])
    (hb : ∀ p ∈ bodies, ('|' : Char) ∉ p) :
    parse_row ('|' :: joinTerm '|' bodies) = bodies.map trimC := by
  unfold parse_row
  rw [trimC_pipeLine, innerOf_pipeLine bodies h, splitOnC_intercalate '|' bodies h hb]

theorem contains_pipeLine (bodies : List (List Char)) :
    ('|' :: joinTerm '|' bodies).contains '|' = true := by
  simp [List.contains_cons]

theorem is_table_line_pipeLine (bodies : List (List Char)) :
    is_table_line ('|' :: joinTerm '|' bodies) = true := by
  unfold is_table_line
  rw [trimC_pipeLine]
  simp [contains_pipeLine bodies]

theorem is_separator_line_pipeLine (bodies : List (List Char)) (h : bodies ≠ [])
    (hb : ∀ p ∈ bodies, ('|' : Char) ∉ p) :
    is_separator_line ('|' :: joinTerm '|' bodies)
      = bodies.all fun b => sepCellB (trimC b) := by
  unfold is_separator_line
  rw [trimC_pipeLine, innerOf_pipeLine bodies h, splitOnC_intercalate '|' bodies h hb,
    contains_pipeLine bodies]
  rfl

theorem is_table_line_contains {l : List Char} (h : is_table_line l = true) :
    (trimC l).contains '|' = true := by
  unfold is_table_line at h
  exact (Bool.and_eq_true_iff.mp h).2

theorem is_separator_line_eq_all (l : List Char) (hc : (trimC l).contains '|' = true) :
    is_separator_line l = (parse_row l).all sepCellB := by
  unfold is_separator_line parse_row
  rw [hc]
  simp [List.all_map, Function.comp_def]

/-! ### Rendered cell bodies -/

theorem mem_cellBody {a : Char} {w : Nat} {s : List Char} (h : a ∈ cellBody w s) :
    a = ' ' ∨ a ∈ s := by
  unfold cellBody padTo at h
  rcases List.mem_cons.mp h with rfl | h
  · exact Or.inl rfl
  rcases List.mem_append.mp h with h | h
  · rcases List.mem_append.mp h with h | h
    · exact Or.inr h
    · exact Or.inl (List.eq_of_mem_replicate h)
  · simp only [List.mem_singleton] at h
    exact Or.inl h

theorem trimC_cellBody (w : Nat) (s : List Char) (hts : trimC s = s) :
    trimC (cellBody w s) = s := by
  unfold cellBody padTo
  have hshape : ' ' :: (s ++ List.replicate (w - s.length) ' ') ++ [' ']
      = [' '] ++ s ++ (List.replicate (w - s.length) ' ' ++ [' ']) := by simp
  rw [hshape, trimC_ws_around (by simp; decide) (by
    intro a ha
    rcases List.mem_append.mp ha with h | h
    · rw [List.eq_of_mem_replicate h]; decide
    · simp only [List.mem_singleton] at h; rw [h]; decide)]
  exact hts

/-! ### Rendered separator bodies -/

theorem mem_sepBody {a : Char} {w : Nat} {al : String} (h : a ∈ sepBody w al) :
    a = ' ' ∨ a = ':' ∨ a = '-' := by
  unfold sepBody at h
  split at h <;>
  · rcases List.mem_cons.mp h with rfl | h
    · simp
    · rcases List.mem_append.mp h with h | h
      · exact Or.inr (Or.inr (List.eq_of_mem_replicate h))
      · simp only [List.mem_singleton] at h
        subst h
        simp

theorem sepAux_trim (first lastc : Char) (w : Nat)
    (hf : first = ':' ∨ first = ' ') (hl : lastc = '-' ∨ lastc = ':') :
    sepCellB (trimC (first :: (List.replicate w '-' ++ [lastc]))) = true := by
  have hbody : sepCellB (List.replicate w '-' ++ [lastc]) = true := by
    unfold sepCellB
    simp only [Bool.and_eq_true, List.all_eq_true]
    constructor
    · simp
    · intro a ha
      rcases List.mem_append.mp ha with h | h
      · rw [List.eq_of_mem_replicate h]; decide
      · simp only [List.mem_singleton] at h
        rcases hl with rfl | rfl <;> (subst h; decide)
  have htrim_body : trimC (List.replicate w '-' ++ [lastc])
      = List.replicate w '-' ++ [lastc] := by
    apply trimC_eq_self_of
    · intro a ha
      cases w with
      | zero =>
        simp only [List.replicate, List.nil_append, List.head?_cons,
          Option.some.injEq] at ha
        rcases hl with rfl | rfl <;> (subst ha; decide)
      | succ k =>
        simp only [List.replicate, List.cons_append, List.head?_cons,
          Option.some.injEq] at ha
        subst ha
        decide
    · intro a ha
      rw [List.getLast?_concat] at ha
      cases ha
      rcases hl with rfl | rfl <;> decide
  rcases hf with rfl | rfl
  · have hself : trimC (':' :: (List.replicate w '-' ++ [lastc]))
        = ':' :: (List.replicate w '-' ++ [lastc]) := by
      apply trimC_eq_self_of
      · intro a ha
        simp only [List.head?_cons, Option.some.injEq] at ha
        subst ha
        decide
      · intro a ha
        rw [show ':' :: (List.replicate w '-' ++ [lastc])
            = (':' :: List.replicate w '-') ++ [lastc] by simp,
          List.getLast?_concat] at ha
        cases ha
        rcases hl with rfl | rfl <;> decide
    rw [hself]
    unfold sepCellB at hbody ⊢
    simp only [Bool.and_eq_true, List.all_eq_true] at hbody ⊢
    obtain ⟨hb1, hb2⟩ := hbody
    constructor
    · simp
    · intro a ha
      rcases List.mem_cons.mp ha with rfl | ha
      · decide
      · exact hb2 a ha
  · rw [show ' ' :: (List.replicate w '-' ++ [lastc])
        = [' '] ++ (List.replicate w '-' ++ [lastc]) by simp,
      trimC_append_ws_left (by simp; decide), htrim_body]
    exact hbody

theorem sepBody_sepCell (w : Nat) (al : String) :
    sepCellB (trimC (sepBody w al)) = true := by
  unfold sepBody
  split
  · exact sepAux_trim ':' '-' w (Or.inl rfl) (Or.inl rfl)
  · exact sepAux_trim ' ' ':' w (Or.inr rfl) (Or.inr rfl)
  · exact sepAux_trim ':' ':' w (Or.inl rfl) (Or.inr rfl)
  · exact sepAux_trim ' ' '-' w (Or.inr rfl) (Or.inl rfl)

/-! ### Rendered table lines -/

theorem mem_joinTerm {a : Char} {c : Char} {ls : List (List Char)}
    (h : a ∈ joinTerm c ls) : a = c ∨ ∃ p ∈ ls, a ∈ p := by
  induction ls with
  | nil => simp [joinTerm_nil] at h
  | cons p ps ih =>
    rw [joinTerm_cons] at h
    rcases List.mem_append.mp h with h | h
    · exact Or.inr ⟨p, List.mem_cons_self p ps, h⟩
    · rcases List.mem_cons.mp h with rfl | h
      · exact Or.inl rfl
      · rcases ih h with h | ⟨q, hq, ha⟩
        · exact Or.inl h
        · exact Or.inr ⟨q, List.mem_cons_of_mem p hq, ha⟩

theorem range_map_getD (row : List (List Char)) (d : List Char) :
    (List.range row.length).map (fun ci => row.getD ci d) = row := by
  induction row with
  | nil => rfl
  | cons x xs ih =>
    rw [List.length_cons, List.range_succ_eq_map, List.map_cons, List.map_map]
    simp only [List.getD_cons_zero, Function.comp_def, Nat.succ_eq_add_one,
      List.getD_cons_succ]
    rw [ih]

theorem snd_mem_of_mem_enum {α : Type} {p : Nat × α} {l : List α} (h : p ∈ l.enum) :
    p.2 ∈ l := by
  have := List.mem_map_of_mem Prod.snd h
  rwa [List.enum_map_snd] at this

theorem headerLine_bodies (headers : List (List Char)) (widths : List Nat) :
    headerLine headers widths
      = '|' :: joinTerm '|' (headers.enum.map fun p => cellBody (widths.getD p.1 3) p.2) :=
  rfl

theorem all_map_congr {α β : Type} (f : α → β) (p : β → Bool) (q : α → Bool)
    (l : List α) (h : ∀ a ∈ l, p (f a) = q a) : (l.map f).all p = l.all q := by
  induction l with
  | nil => rfl
  | cons x xs ih =>
    simp only [List.map_cons, List.all_cons, h x (List.mem_cons_self x xs)]
    rw [ih fun a ha => h a (List.mem_cons_of_mem x ha)]

theorem getD_mem {α : Type} {l : List α} {i : Nat} (h : i < l.length) (d : α) :
    l.getD i d ∈ l := by
  rw [List.getD_eq_getElem?_getD, List.getElem?_eq_getElem h]
  exact List.getElem_mem h

theorem getD_default {α : Type} {l : List α} {i : Nat} (h : l.length ≤ i) (d : α) :
    l.getD i d = d := by
  rw [List.getD_eq_getElem?_getD, List.getElem?_eq_none h]
  rfl

theorem headerLine_bodies_ne_nil (headers : List (List Char)) (widths : List Nat)
    (h : headers ≠ []) :
    headers.enum.map (fun p => cellBody (widths.getD p.1 3) p.2) ≠ [] := by
  simp [List.enum_eq_nil, h]

theorem headerLine_bodies_no_pipe (headers : List (List Char)) (widths : List Nat)
    (hnp : ∀ s ∈ headers, ('|' : Char) ∉ s) :
    ∀ p ∈ headers.enum.map fun p => cellBody (widths.getD p.1 3) p.2,
      ('|' : Char) ∉ p := by
  intro p hp hmem
  obtain ⟨q, hq, rfl⟩ := List.mem_map.mp hp
  rcases mem_cellBody hmem with h | h
  · cases h
  · exact hnp q.2 (snd_mem_of_mem_enum hq) h

theorem parse_row_headerLine (headers : List (List Char)) (widths : List Nat)
    (h : headers ≠ []) (hts : ∀ s ∈ headers, trimC s = s)
    (hnp : ∀ s ∈ headers, ('|' : Char) ∉ s) :
    parse_row (headerLine headers widths) = headers := by
  rw [headerLine_bodies,
    parse_row_pipeLine _ (headerLine_bodies_ne_nil headers widths h)
      (headerLine_bodies_no_pipe headers widths hnp),
    List.map_map]
  have : ∀ p ∈ headers.enum,
      (trimC ∘ fun p => cellBody (widths.getD p.1 3) p.2) p = Prod.snd p := by
    intro p hp
    exact trimC_cellBody _ _ (hts p.2 (snd_mem_of_mem_enum hp))
  rw [List.map_congr_left this, List.enum_map_snd]

theorem is_separator_line_headerLine (headers : List (List Char)) (widths : List Nat)
    (h : headers ≠ []) (hts : ∀ s ∈ headers, trimC s = s)
    (hnp : ∀ s ∈ headers, ('|' : Char) ∉ s) :
    is_separator_line (headerLine headers widths) = headers.all sepCellB := by
  rw [headerLine_bodies,
    is_separator_line_pipeLine _ (headerLine_bodies_ne_nil headers widths h)
      (headerLine_bodies_no_pipe headers widths hnp)]
  rw [all_map_congr _ _ (fun p : Nat × List Char => sepCellB p.2) _ (by
    intro p hp
    rw [trimC_cellBody _ _ (hts p.2 (snd_mem_of_mem_enum hp))])]
  conv_rhs => rw [← List.enum_map_snd headers]
  rw [all_map_congr Prod.snd sepCellB (fun p : Nat × List Char => sepCellB p.2) _
    (fun a _ => rfl)]

theorem rowLine_bodies (n : Nat) (widths : List Nat) (row : List (List Char)) :
    rowLine n widths row
      = '|' :: joinTerm '|'
          ((List.range n).map fun ci => cellBody (widths.getD ci 3) (row.getD ci [])) :=
  rfl

theorem rowLine_bodies_ne_nil (n : Nat) (widths : List Nat) (row : List (List Char))
    (h : n ≠ 0) :
    (List.range n).map (fun ci => cellBody (widths.getD ci 3) (row.getD ci [])) ≠ [] := by
  simp [h]

theorem rowLine_bodies_no_pipe (n : Nat) (widths : List Nat) (row : List (List Char))
    (hnp : ∀ s ∈ row, ('|' : Char) ∉ s) :
    ∀ p ∈ (List.range n).map fun ci => cellBody (widths.getD ci 3) (row.getD ci []),
      ('|' : Char) ∉ p := by
  intro p hp hmem
  obtain ⟨ci, _, rfl⟩ := List.mem_map.mp hp
  rcases mem_cellBody hmem with h | h
  · cases h
  · by_cases hci : ci < row.length
    · exact hnp _ (getD_mem hci []) h
    · rw [getD_default (Nat.le_of_not_lt hci)] at h
      simp at h

theorem parse_row_rowLine (n : Nat) (widths : List Nat) (row : List (List Char))
    (h : n ≠ 0) (hlen : row.length = n) (hts : ∀ s ∈ row, trimC s = s)
    (hnp : ∀ s ∈ row, ('|' : Char) ∉ s) :
    parse_row (rowLine n widths row) = row := by
  rw [rowLine_bodies,
    parse_row_pipeLine _ (rowLine_bodies_ne_nil n widths row h)
      (rowLine_bodies_no_pipe n widths row hnp),
    List.map_map]
  have : ∀ ci ∈ List.range n,
      (trimC ∘ fun ci => cellBody (widths.getD ci 3) (row.getD ci [])) ci
        = (fun ci => row.getD ci []) ci := by
    intro ci hci
    simp only [Function.comp_def]
    apply trimC_cellBody
    by_cases hlt : ci < row.length
    · exact hts _ (getD_mem hlt [])
    · rw [getD_default (Nat.le_of_not_lt hlt)]
      rfl
  rw [List.map_congr_left this, ← hlen, range_map_getD]

theorem is_separator_line_rowLine (n : Nat) (widths : List Nat) (row : List (List Char))
    (h : n ≠ 0) (hlen : row.length = n) (hts : ∀ s ∈ row, trimC s = s)
    (hnp : ∀ s ∈ row, ('|' : Char) ∉ s) :
    is_separator_line (rowLine n widths row) = row.all sepCellB := by
  rw [rowLine_bodies,
    is_separator_line_pipeLine _ (rowLine_bodies_ne_nil n widths row h)
      (rowLine_bodies_no_pipe n widths row hnp)]
  rw [all_map_congr _ _ (fun ci => sepCellB (row.getD ci [])) _ (by
    intro ci hci
    congr 1
    apply trimC_cellBody
    by_cases hlt : ci < row.length
    · exact hts _ (getD_mem hlt [])
    · rw [getD_default (Nat.le_of_not_lt hlt)]
      rfl)]
  conv_rhs => rw [← range_map_getD row []]
  rw [all_map_congr (fun ci => row.getD ci []) sepCellB
    (fun ci => sepCellB (row.getD ci [])) _ (fun a _ => rfl), hlen]

theorem sepLine_bodies (n : Nat) (widths : List Nat) (aligns : List String) :
    sepLine n widths aligns
      = '|' :: joinTerm '|'
          ((List.range n).map fun ci => sepBody (widths.getD ci 3) (aligns.getD ci "none")) :=
  rfl

theorem is_separator_line_sepLine (n : Nat) (widths : List Nat) (aligns : List String)
    (h : n ≠ 0) : is_separator_line (sepLine n widths aligns) = true := by
  rw [sepLine_bodies, is_separator_line_pipeLine _ (by simp [h]) (by
    intro p hp hmem
    obtain ⟨ci, _, rfl⟩ := List.mem_map.mp hp
    rcases mem_sepBody hmem with h | h | h <;> cases h)]
  rw [List.all_eq_true]
  intro b hb
  obtain ⟨ci, _, rfl⟩ := List.mem_map.mp hb
  exact sepBody_sepCell _ _

theorem is_table_line_headerLine (headers : List (List Char)) (widths : List Nat) :
    is_table_line (headerLine headers widths) = true :=
  is_table_line_pipeLine _

theorem is_table_line_sepLine (n : Nat) (widths : List Nat) (aligns : List String) :
    is_table_line (sepLine n widths aligns) = true :=
  is_table_line_pipeLine _

theorem is_table_line_rowLine (n : Nat) (widths : List Nat) (row : List (List Char)) :
    is_table_line (rowLine n widths row) = true :=
  is_table_line_pipeLine _

theorem startsHash_pipeLine (bodies : List (List Char)) :
    startsHash (trimC ('|' :: joinTerm '|' bodies)) = false := by
  rw [trimC_pipeLine]
  rfl

/-! ### Facts about the body-row loop -/

theorem resizeRow_length (n : Nat) (row : List (List Char)) :
    (resizeRow n row).length = n := by
  unfold resizeRow
  rw [List.length_append, List.length_take, List.length_replicate]
  omega

theorem mem_resizeRow {n : Nat} {row : List (List Char)} :
    ∀ r ∈ resizeRow n row, r ∈ row ∨ r = [] := by
  intro r h
  unfold resizeRow at h
  rcases List.mem_append.mp h with h | h
  · exact Or.inl (List.take_subset n row h)
  · exact Or.inr (List.eq_of_mem_replicate h)

theorem collectRowsL_fst_length_le (n : Nat) (ls : List (List Char)) :
    (collectRowsL n ls).1.length ≤ ls.length := by
  induction ls with
  | nil => simp [collectRowsL]
  | cons l rest ih =>
    simp only [collectRowsL]
    split
    · simpa using ih
    · simp

theorem collectRowsL_snd_eq_drop (n : Nat) (ls : List (List Char)) :
    (collectRowsL n ls).2 = ls.drop (collectRowsL n ls).1.length := by
  induction ls with
  | nil => simp [collectRowsL]
  | cons l rest ih =>
    simp only [collectRowsL]
    split
    · simpa using ih
    · simp

theorem collectRowsL_stop (n : Nat) (ls : List (List Char)) :
    ∀ l0, (collectRowsL n ls).2.head? = some l0 →
      (is_table_line l0 && !is_separator_line l0) = false := by
  induction ls with
  | nil => simp [collectRowsL]
  | cons l rest ih =>
    intro l0 h0
    simp only [collectRowsL] at h0
    split at h0
    · exact ih l0 (by simpa using h0)
    · next hc =>
      simp only [List.head?_cons, Option.some.injEq] at h0
      subst h0
      exact Bool.not_eq_true _ ▸ Bool.of_not_eq_true hc

theorem collectRowsL_rows_len (n : Nat) (ls : List (List Char)) :
    ∀ r ∈ (collectRowsL n ls).1, r.length = n := by
  induction ls with
  | nil => simp [collectRowsL]
  | cons l rest ih =>
    intro r hr
    simp only [collectRowsL] at hr
    split at hr
    · rcases List.mem_cons.mp (by simpa using hr) with rfl | hr
      · exact resizeRow_length n _
      · exact ih r hr
    · simp at hr

theorem collectRowsL_rows_cells (n : Nat) (ls : List (List Char)) :
    ∀ r ∈ (collectRowsL n ls).1, ∀ s ∈ r,
      trimC s = s ∧ ('|' : Char) ∉ s ∧ ∀ a ∈ s, ∃ l ∈ ls, a ∈ l := by
  induction ls with
  | nil => simp [collectRowsL]
  | cons l rest ih =>
    intro r hr s hs
    simp only [collectRowsL] at hr
    split at hr
    · rcases List.mem_cons.mp (by simpa using hr) with rfl | hr
      · rcases mem_resizeRow s hs with hin | rfl
        · exact ⟨parse_row_trim_stable l s hin, parse_row_no_pipe l s hin,
            fun a ha => ⟨l, List.mem_cons_self l rest,
              mem_parse_row_mem_line l s hin a ha⟩⟩
        · exact ⟨rfl, by simp, by simp⟩
      · obtain ⟨h1, h2, h3⟩ := ih r hr s hs
        exact ⟨h1, h2, fun a ha =>
          let ⟨l2, hl2, ha2⟩ := h3 a ha
          ⟨l2, List.mem_cons_of_mem l hl2, ha2⟩⟩
    · simp at hr

/-! ### Wellformedness of the scan -/

theorem scanF_start_ge (f : Nat) (ls : List (List Char)) (i : Nat)
    (h : Option (List Char)) : ∀ t ∈ scanF f ls i h, i ≤ t.start_line := by
  induction f, ls, i, h using scanF.induct with
  | case1 ls i h => simp [scanF_nil, scanF]
  | case2 n i h => simp [scanF]
  | case3 fuel l rest i h hh ih =>
    intro t ht
    simp only [scanF, hh, if_true] at ht
    exact Nat.le_of_succ_le (ih t ht)
  | case4 fuel l i h hh =>
    intro t ht
    simp only [scanF, hh, Bool.false_eq_true, if_false] at ht
    exact absurd ht (List.not_mem_nil t)
  | case5 fuel l i h hh l1 rest2 hts headers cr ih =>
    have hhd : headers = parse_row l := rfl
    have hcr : cr = collectRowsL headers.length rest2 := rfl
    rw [hhd] at hcr
    rw [hcr] at ih
    intro t ht
    simp only [scanF, hh, Bool.false_eq_true, if_false, hts, if_true] at ht
    rcases List.mem_cons.mp ht with rfl | ht
    · exact Nat.le_refl i
    · exact le_trans (by omega) (ih t ht)
  | case6 fuel l i h hh l1 rest2 hts ih =>
    intro t ht
    simp only [scanF, hh, Bool.false_eq_true, if_false, hts] at ht
    exact Nat.le_of_succ_le (ih t ht)

theorem scanF_shape (f : Nat) (ls : List (List Char)) (i : Nat)
    (h : Option (List Char)) : ∀ t ∈ scanF f ls i h,
      t.end_line = t.start_line + 1 + t.rows.length ∧ t.headers ≠ [] ∧
        ∀ r ∈ t.rows, r.length = t.headers.length := by
  induction f, ls, i, h using scanF.induct with
  | case1 ls i h => simp [scanF_nil, scanF]
  | case2 n i h => simp [scanF]
  | case3 fuel l rest i h hh ih =>
    intro t ht
    simp only [scanF, hh, if_true] at ht
    exact ih t ht
  | case4 fuel l i h hh =>
    intro t ht
    simp only [scanF, hh, Bool.false_eq_true, if_false] at ht
    exact absurd ht (List.not_mem_nil t)
  | case5 fuel l i h hh l1 rest2 hts headers cr ih =>
    have hhd : headers = parse_row l := rfl
    have hcr : cr = collectRowsL headers.length rest2 := rfl
    rw [hhd] at hcr
    rw [hcr] at ih
    intro t ht
    simp only [scanF, hh, Bool.false_eq_true, if_false, hts, if_true] at ht
    rcases List.mem_cons.mp ht with rfl | ht
    · exact ⟨rfl, parse_row_ne_nil l, collectRowsL_rows_len _ _⟩
    · exact ih t ht
  | case6 fuel l i h hh l1 rest2 hts ih =>
    intro t ht
    simp only [scanF, hh, Bool.false_eq_true, if_false, hts] at ht
    exact ih t ht

theorem scanF_end_lt (f : Nat) (ls : List (List Char)) (i : Nat)
    (h : Option (List Char)) : ∀ t ∈ scanF f ls i h, t.end_line < i + ls.length := by
  induction f, ls, i, h using scanF.induct with
  | case1 ls i h => simp [scanF_nil, scanF]
  | case2 n i h => simp [scanF]
  | case3 fuel l rest i h hh ih =>
    intro t ht
    simp only [scanF, hh, if_true] at ht
    have := ih t ht
    simp only [List.length_cons]
    omega
  | case4 fuel l i h hh =>
    intro t ht
    simp only [scanF, hh, Bool.false_eq_true, if_false] at ht
    exact absurd ht (List.not_mem_nil t)
  | case5 fuel l i h hh l1 rest2 hts headers cr ih =>
    have hhd : headers = parse_row l := rfl
    have hcr : cr = collectRowsL headers.length rest2 := rfl
    rw [hhd] at hcr
    rw [hcr] at ih
    intro t ht
    simp only [scanF, hh, Bool.false_eq_true, if_false, hts, if_true] at ht
    have hq := collectRowsL_fst_length_le (parse_row l).length rest2
    have hd := collectRowsL_snd_eq_drop (parse_row l).length rest2
    have hlen2 : (collectRowsL (parse_row l).length rest2).2.length
        = rest2.length - (collectRowsL (parse_row l).length rest2).1.length := by
      rw [hd, List.length_drop]
    rcases List.mem_cons.mp ht with rfl | ht
    · simp only [List.length_cons]
      omega
    · have := ih t ht
      simp only [List.length_cons]
      omega
  | case6 fuel l i h hh l1 rest2 hts ih =>
    intro t ht
    simp only [scanF, hh, Bool.false_eq_true, if_false, hts] at ht
    have := ih t ht
    simp only [List.length_cons] at this ⊢
    omega

theorem scanF_chain (f : Nat) (ls : List (List Char)) (i : Nat)
    (h : Option (List Char)) :
    List.Chain' (fun a b => a.end_line < b.start_line) (scanF f ls i h) := by
  induction f, ls, i, h using scanF.induct with
  | case1 ls i h => simp [scanF_nil, scanF]
  | case2 n i h => simp [scanF]
  | case3 fuel l rest i h hh ih =>
    simpa only [scanF, hh, if_true] using ih
  | case4 fuel l i h hh =>
    simp only [scanF, hh, Bool.false_eq_true, if_false]
    exact List.chain'_nil
  | case5 fuel l i h hh l1 rest2 hts headers cr ih =>
    have hhd : headers = parse_row l := rfl
    have hcr : cr = collectRowsL headers.length rest2 := rfl
    rw [hhd] at hcr
    rw [hcr] at ih
    simp only [scanF, hh, Bool.false_eq_true, if_false, hts, if_true]
    refine List.chain'_cons'.mpr ⟨?_, ih⟩
    intro b hb
    have hb2 := scanF_start_ge fuel _ _ h b (List.mem_of_mem_head? hb)
    simp only []
    omega
  | case6 fuel l i h hh l1 rest2 hts ih =>
    simpa only [scanF, hh, Bool.false_eq_true, if_false, hts] using ih

theorem scanF_startline (f : Nat) (ls : List (List Char)) (i : Nat)
    (h : Option (List Char)) : ∀ t ∈ scanF f ls i h,
      t.start_line - i < ls.length ∧
      startsHash (trimC (ls.getD (t.start_line - i) [])) = false ∧
      is_table_line (ls.getD (t.start_line - i) []) = true := by
  induction f, ls, i, h using scanF.induct with
  | case1 ls i h => simp [scanF_nil, scanF]
  | case2 n i h => simp [scanF]
  | case3 fuel l rest i h hh ih =>
    intro t ht
    simp only [scanF, hh, if_true] at ht
    have hge := scanF_start_ge fuel rest (i + 1) _ t ht
    obtain ⟨h1, h2, h3⟩ := ih t ht
    have heq : t.start_line - i = (t.start_line - (i + 1)) + 1 := by omega
    rw [heq]
    simp only [List.getD_cons_succ, List.length_cons]
    exact ⟨by omega, h2, h3⟩
  | case4 fuel l i h hh =>
    intro t ht
    simp only [scanF, hh, Bool.false_eq_true, if_false] at ht
    exact absurd ht (List.not_mem_nil t)
  | case5 fuel l i h hh l1 rest2 hts headers cr ih =>
    have hhd : headers = parse_row l := rfl
    have hcr : cr = collectRowsL headers.length rest2 := rfl
    rw [hhd] at hcr
    rw [hcr] at ih
    intro t ht
    simp only [scanF, hh, Bool.false_eq_true, if_false, hts, if_true] at ht
    rcases List.mem_cons.mp ht with rfl | ht
    · simp only [Nat.sub_self, List.getD_cons_zero, List.length_cons]
      exact ⟨by omega, by simp at hh; exact hh, (Bool.and_eq_true_iff.mp hts).1⟩
    · have hge := scanF_start_ge fuel _ _ h t ht
      obtain ⟨h1, h2, h3⟩ := ih t ht
      have hd := collectRowsL_snd_eq_drop (parse_row l).length rest2
      set q := (collectRowsL (parse_row l).length rest2).1.length with hqdef
      have heq : t.start_line - i = (t.start_line - (i + 2 + q)) + q + 2 := by omega
      rw [heq]
      simp only [List.getD_cons_succ, List.length_cons]
      rw [hd] at h1 h2 h3
      rw [List.length_drop] at h1
      have hgd : ∀ d : List Char, (rest2.drop q).getD (t.start_line - (i + 2 + q)) d
          = rest2.getD (t.start_line - (i + 2 + q) + q) d := by
        intro d
        rw [List.getD_eq_getElem?_getD, List.getD_eq_getElem?_getD,
          List.getElem?_drop, Nat.add_comm]
      rw [hgd] at h2 h3
      exact ⟨by omega, h2, h3⟩
  | case6 fuel l i h hh l1 rest2 hts ih =>
    intro t ht
    simp only [scanF, hh, Bool.false_eq_true, if_false, hts] at ht
    have hge := scanF_start_ge fuel _ (i + 1) _ t ht
    obtain ⟨h1, h2, h3⟩ := ih t ht
    have heq : t.start_line - i = (t.start_line - (i + 1)) + 1 := by omega
    rw [heq]
    simp only [List.getD_cons_succ, List.length_cons] at h1 h2 h3 ⊢
    exact ⟨by omega, h2, h3⟩

theorem scanF_cells (f : Nat) (ls : List (List Char)) (i : Nat)
    (h : Option (List Char)) : ∀ t ∈ scanF f ls i h,
      (∀ s ∈ t.headers, trimC s = s ∧ ('|' : Char) ∉ s ∧ ∀ a ∈ s, ∃ l ∈ ls, a ∈ l) ∧
      (∀ r ∈ t.rows, ∀ s ∈ r, trimC s = s ∧ ('|' : Char) ∉ s ∧ ∀ a ∈ s, ∃ l ∈ ls, a ∈ l) := by
  induction f, ls, i, h using scanF.induct with
  | case1 ls i h => simp [scanF_nil, scanF]
  | case2 n i h => simp [scanF]
  | case3 fuel l rest i h hh ih =>
    intro t ht
    simp only [scanF, hh, if_true] at ht
    obtain ⟨h1, h2⟩ := ih t ht
    refine ⟨fun s hs => ?_, fun r hr s hs => ?_⟩
    · obtain ⟨a1, a2, a3⟩ := h1 s hs
      exact ⟨a1, a2, fun a ha => let ⟨l2, hl2, ha2⟩ := a3 a ha
        ⟨l2, List.mem_cons_of_mem l hl2, ha2⟩⟩
    · obtain ⟨a1, a2, a3⟩ := h2 r hr s hs
      exact ⟨a1, a2, fun a ha => let ⟨l2, hl2, ha2⟩ := a3 a ha
        ⟨l2, List.mem_cons_of_mem l hl2, ha2⟩⟩
  | case4 fuel l i h hh =>
    intro t ht
    simp only [scanF, hh, Bool.false_eq_true, if_false] at ht
    exact absurd ht (List.not_mem_nil t)
  | case5 fuel l i h hh l1 rest2 hts headers cr ih =>
    have hhd : headers = parse_row l := rfl
    have hcr : cr = collectRowsL headers.length rest2 := rfl
    rw [hhd] at hcr
    rw [hcr] at ih
    intro t ht
    simp only [scanF, hh, Bool.false_eq_true, if_false, hts, if_true] at ht
    rcases List.mem_cons.mp ht with rfl | ht
    · constructor
      · intro s hs
        exact ⟨parse_row_trim_stable l s hs, parse_row_no_pipe l s hs,
          fun a ha => ⟨l, List.mem_cons_self l _, mem_parse_row_mem_line l s hs a ha⟩⟩
      · intro r hr s hs
        obtain ⟨a1, a2, a3⟩ := collectRowsL_rows_cells _ rest2 r hr s hs
        exact ⟨a1, a2, fun a ha => let ⟨l2, hl2, ha2⟩ := a3 a ha
          ⟨l2, List.mem_cons_of_mem _ (List.mem_cons_of_mem _ hl2), ha2⟩⟩
    · obtain ⟨h1, h2⟩ := ih t ht
      have hsub : ∀ l2 ∈ (collectRowsL (parse_row l).length rest2).2,
          l2 ∈ l :: l1 :: rest2 := by
        intro l2 hl2
        rw [collectRowsL_snd_eq_drop] at hl2
        exact List.mem_cons_of_mem _ (List.mem_cons_of_mem _
          (List.drop_subset _ rest2 hl2))
      refine ⟨fun s hs => ?_, fun r hr s hs => ?_⟩
      · obtain ⟨a1, a2, a3⟩ := h1 s hs
        exact ⟨a1, a2, fun a ha => let ⟨l2, hl2, ha2⟩ := a3 a ha
          ⟨l2, hsub l2 hl2, ha2⟩⟩
      · obtain ⟨a1, a2, a3⟩ := h2 r hr s hs
        exact ⟨a1, a2, fun a ha => let ⟨l2, hl2, ha2⟩ := a3 a ha
          ⟨l2, hsub l2 hl2, ha2⟩⟩
  | case6 fuel l i h hh l1 rest2 hts ih =>
    intro t ht
    simp only [scanF, hh, Bool.false_eq_true, if_false, hts] at ht
    obtain ⟨h1, h2⟩ := ih t ht
    refine ⟨fun s hs => ?_, fun r hr s hs => ?_⟩
    · obtain ⟨a1, a2, a3⟩ := h1 s hs
      exact ⟨a1, a2, fun a ha => let ⟨l2, hl2, ha2⟩ := a3 a ha
        ⟨l2, List.mem_cons_of_mem l hl2, ha2⟩⟩
    · obtain ⟨a1, a2, a3⟩ := h2 r hr s hs
      exact ⟨a1, a2, fun a ha => let ⟨l2, hl2, ha2⟩ := a3 a ha
        ⟨l2, List.mem_cons_of_mem l hl2, ha2⟩⟩

/-- C2: `parse_row` is claimed to strip the leading and trailing pipes
independently, so that `"|a|b"` tokenizes to `["a","b"]`.  The code's
`strip_prefix(..).unwrap_or(trimmed).strip_suffix(..).unwrap_or(trimmed)`
falls back to the *unstripped* trimmed line when the trailing strip
fails, so `"|a|b"` actually tokenizes to `["","a","b"]`, while the
claim-described tokenizer yields `["a","b"]`. -/
theorem c2_parse_row_on_failing_input :
    parse_row ("|a|b".toList) = [[], "a".toList, "b".toList]
      ∧ parse_row_spec ("|a|b".toList) = ["a".toList, "b".toList]
      ∧ parse_row ("|a|b".toList) ≠ parse_row_spec ("|a|b".toList) := by
  decide

/-- C3: `is_separator_line` is claimed to hold iff the line contains a
pipe and, after independently stripping one optional leading and one
optional trailing pipe and splitting, every cell is non-empty and made
of `'-'`/`':'` only.  On `"|---"` the claim demands `true` (cells
`["---"]`), but the code's fallback re-instates the leading pipe and
yields cells `["","---"]`, hence `false`.  The claim's concrete examples
(`"| | |"` rejected, `"|---|:--:|--:|"` accepted with alignments
`[none, center, right]`) do hold. -/
theorem c3_separator_on_failing_input :
    is_separator_line ("|---".toList) = false
      ∧ is_separator_line_spec ("|---".toList) = true
      ∧ is_separator_line ("| | |".toList) = false
      ∧ is_separator_line ("|---|:--:|--:|".toList) = true
      ∧ parse_alignments ("|---|:--:|--:|".toList) = ["none", "center", "right"] := by
  decide

/-- C4: every table produced by `parse_markdown` satisfies
`end_line >= start_line + 1` and `end_line - start_line - 1 = rows.length`. -/
theorem c4_end_line_counts_rows (content : List Char) :
    ∀ t ∈ (parse_markdown content).tables,
      t.start_line + 1 ≤ t.end_line ∧
        t.end_line - t.start_line - 1 = t.rows.length := by
  intro t ht
  have hs := scanF_shape _ _ _ _ t ht
  omega

/-- Witness for C4 at a concrete document. -/
theorem c4_witness :
    ((parse_markdown ("| A |\n|---|\n| 1 |".toList)).tables.getD 0 default).start_line + 1
        ≤ ((parse_markdown ("| A |\n|---|\n| 1 |".toList)).tables.getD 0 default).end_line
      ∧ ((parse_markdown ("| A |\n|---|\n| 1 |".toList)).tables.getD 0 default).end_line
          - ((parse_markdown ("| A |\n|---|\n| 1 |".toList)).tables.getD 0 default).start_line - 1
        = ((parse_markdown ("| A |\n|---|\n| 1 |".toList)).tables.getD 0 default).rows.length :=
  c4_end_line_counts_rows ("| A |\n|---|\n| 1 |".toList) _ (by decide)

/-- C5: for every input document the extracted tables are ordered and
non-overlapping: each table's `end_line` is strictly below the next
table's `start_line`. -/
theorem c5_tables_ordered (content : List Char) :
    List.Chain' (fun a b => a.end_line < b.start_line)
      (parse_markdown content).tables :=
  scanF_chain _ _ _ _

/-- C6: every body row of every parsed table has exactly as many cells
as the table's header row. -/
theorem c6_rows_normalized (content : List Char) :
    ∀ t ∈ (parse_markdown content).tables, ∀ r ∈ t.rows,
      r.length = t.headers.length := by
  intro t ht r hr
  exact (scanF_shape _ _ _ _ t ht).2.2 r hr

/-- Witness for C6 at a concrete document with one short and one long row. -/
theorem c6_witness :
    (((parse_markdown ("| A | B |\n|---|---|\n| 1 |\n| 1 | 2 | 3 |".toList)).tables.getD 0
          default).rows.getD 0 []).length
      = ((parse_markdown ("| A | B |\n|---|---|\n| 1 |\n| 1 | 2 | 3 |".toList)).tables.getD 0
          default).headers.length :=
  c6_rows_normalized ("| A | B |\n|---|---|\n| 1 |\n| 1 | 2 | 3 |".toList) _ (by decide) _
    (by decide)

/-- C9 (amended): heading detection precedes table detection at each
scan position, so no table's `start_line` ever points at a line whose
trimmed form begins with `'#'` (and every table-start line is in range
of the line list).  A `'#'`-line *can* however be consumed as a body row
of an already started table, in which case it is not recorded as a
heading (see the counterexample). -/
theorem c9_no_table_starts_at_heading (content : List Char) :
    ∀ t ∈ (parse_markdown content).tables,
      t.start_line < (parse_markdown content).lines.length ∧
        startsHash (trimC ((parse_markdown content).lines.getD t.start_line [])) = false := by
  intro t ht
  have hs := scanF_startline _ _ 0 none t ht
  rw [Nat.sub_zero] at hs
  exact ⟨hs.1, hs.2.1⟩

/-- Witness for C9 at a document whose first line is a heading that
contains pipes and is followed by a valid table. -/
theorem c9_witness :
    ((parse_markdown ("# A | B\n| A | B |\n| --- | --- |\n| 1 | 2 |".toList)).tables.getD 0
          default).start_line
        < (parse_markdown ("# A | B\n| A | B |\n| --- | --- |\n| 1 | 2 |".toList)).lines.length
      ∧ startsHash (trimC ((parse_markdown
          ("# A | B\n| A | B |\n| --- | --- |\n| 1 | 2 |".toList)).lines.getD
            ((parse_markdown
              ("# A | B\n| A | B |\n| --- | --- |\n| 1 | 2 |".toList)).tables.getD 0
                default).start_line [])) = false :=
  c9_no_table_starts_at_heading
    ("# A | B\n| A | B |\n| --- | --- |\n| 1 | 2 |".toList) _ (by decide)

/-- C9 counterexample: a line whose trimmed form starts with `'#'` but
which lies inside a table's body span is consumed as a body row and is
*not* recorded as a heading — the following table still carries the
earlier heading `"T"` instead of `"x | y"`. -/
theorem c9_counterexample :
    startsHash (trimC ((parse_markdown ("# T\n|h|\n|-|\n# x | y\n\n|a|\n|-|\n".toList)).lines.getD
        3 [])) = true
      ∧ ((parse_markdown ("# T\n|h|\n|-|\n# x | y\n\n|a|\n|-|\n".toList)).tables.getD 0
          default).rows = [["# x".toList]]
      ∧ headingText (trimC ((parse_markdown
          ("# T\n|h|\n|-|\n# x | y\n\n|a|\n|-|\n".toList)).lines.getD 3 [])) = "x | y".toList
      ∧ ((parse_markdown ("# T\n|h|\n|-|\n# x | y\n\n|a|\n|-|\n".toList)).tables.getD 1
          default).heading = some ("T".toList)
      ∧ ((parse_markdown ("# T\n|h|\n|-|\n# x | y\n\n|a|\n|-|\n".toList)).tables.getD 1
          default).heading ≠ some ("x | y".toList) := by
  decide

theorem sepBody_of_unrecognized (w : Nat) (a : String) (h1 : ¬a = "left")
    (h2 : ¬a = "right") (h3 : ¬a = "center") :
    sepBody w a = ' ' :: List.replicate w '-' ++ ['-'] := by
  unfold sepBody
  split
  · exact absurd rfl h1
  · exact absurd rfl h2
  · exact absurd rfl h3
  · rfl

theorem sepBody_canonAlign (w : Nat) (a : String) :
    sepBody w (canonAlign a) = sepBody w a := by
  unfold canonAlign
  by_cases h1 : a = "left"
  · rw [if_pos (Or.inl h1)]
  by_cases h2 : a = "right"
  · rw [if_pos (Or.inr (Or.inl h2))]
  by_cases h3 : a = "center"
  · rw [if_pos (Or.inr (Or.inr h3))]
  rw [if_neg (by simp [h1, h2, h3])]
  rw [sepBody_of_unrecognized w a h1 h2 h3]
  unfold sepBody
  rfl

theorem getD_normRow (n ci : Nat) (r : List (List Char)) (hci : ci < n) :
    (normRow n r).getD ci [] = r.getD ci [] := by
  unfold normRow
  by_cases hlt : ci < r.length
  · rw [List.getD_eq_getElem?_getD, List.getD_eq_getElem?_getD,
      List.getElem?_append_left (by rw [List.length_take]; omega),
      List.getElem?_take_of_lt hci]
  · have hge := Nat.le_of_not_lt hlt
    rw [getD_default hge, List.getD_eq_getElem?_getD]
    by_cases hn : n ≤ r.length
    · exact absurd (Nat.lt_of_lt_of_le hci hn) hlt
    · have htake : r.take n = r := List.take_of_length_le (by omega)
      rw [htake, List.getElem?_append_right hge, List.getElem?_replicate,
        if_pos (by omega)]
      rfl

theorem getD_normAligns (n ci : Nat) (al : List String) (hci : ci < n) :
    ((al.take n ++ List.replicate (n - al.length) "none").map canonAlign).getD ci "none"
      = canonAlign (al.getD ci "none") := by
  rw [List.getD_eq_getElem?_getD, List.getD_eq_getElem?_getD, List.getElem?_map]
  by_cases hlt : ci < al.length
  · rw [List.getElem?_append_left (by rw [List.length_take]; omega),
      List.getElem?_take_of_lt hci, List.getElem?_eq_getElem hlt]
    rfl
  · have hge := Nat.le_of_not_lt hlt
    by_cases hn : n ≤ al.length
    · exact absurd (Nat.lt_of_lt_of_le hci hn) hlt
    · have htake : al.take n = al := List.take_of_length_le (by omega)
      rw [htake, List.getElem?_append_right hge, List.getElem?_replicate,
        if_pos (by omega), List.getElem?_eq_none hge]
      rfl

theorem updateRowW_nil_left (r : List (List Char)) : updateRowW [] r = [] := by
  cases r <;> rfl

theorem updateRowW_nil_right (ws : List Nat) : updateRowW ws [] = ws := by
  cases ws <;> rfl

theorem updateRowW_length (ws : List Nat) (r : List (List Char)) :
    (updateRowW ws r).length = ws.length := by
  induction ws generalizing r with
  | nil => rw [updateRowW_nil_left]
  | cons w ws ih =>
    cases r with
    | nil => rw [updateRowW_nil_right]
    | cons c cs => simpa [updateRowW] using ih cs

theorem updateRowW_normRow (ws : List Nat) (n : Nat) (r : List (List Char))
    (hle : ws.length ≤ n) : updateRowW ws (normRow n r) = updateRowW ws r := by
  induction ws generalizing r n with
  | nil => rw [updateRowW_nil_left, updateRowW_nil_left]
  | cons w ws ih =>
    have hn : n ≠ 0 := by intro h; subst h; simp at hle
    obtain ⟨m, rfl⟩ := Nat.exists_eq_succ_of_ne_zero hn
    cases r with
    | nil =>
      show updateRowW (w :: ws) (normRow (m + 1) []) = w :: ws
      unfold normRow
      simp only [List.take_nil, List.nil_append, Nat.sub_zero, List.length_nil]
      rw [List.replicate_succ]
      show max w (List.length []) :: updateRowW ws (List.replicate m []) = w :: ws
      have h1 : List.replicate m ([] : List Char) = normRow m [] := by
        simp [normRow]
      rw [h1, ih m [] (by simpa using hle), updateRowW_nil_right]
      simp
    | cons c cs =>
      unfold normRow
      rw [List.take_succ_cons]
      have harith : m + 1 - (c :: cs).length = m - cs.length := by
        simp only [List.length_cons]
        omega
      rw [harith, List.cons_append]
      show max w c.length :: updateRowW ws (cs.take m ++ List.replicate (m - cs.length) [])
        = max w c.length :: updateRowW ws cs
      rw [show cs.take m ++ List.replicate (m - cs.length) [] = normRow m cs from rfl,
        ih m cs (by simpa using hle)]

theorem widthsOf_normalizeTable (t : MarkdownTable) :
    widthsOf (normalizeTable t) = widthsOf t := by
  unfold widthsOf normalizeTable
  simp only []
  rw [List.foldl_map]
  have : ∀ (rows : List (List (List Char))) (ws : List Nat),
      ws.length = t.headers.length →
      rows.foldl (fun acc r => updateRowW acc (normRow t.headers.length r)) ws
        = rows.foldl updateRowW ws := by
    intro rows
    induction rows with
    | nil => intro ws _; rfl
    | cons r rs ih =>
      intro ws hws
      simp only [List.foldl_cons]
      rw [updateRowW_normRow ws _ r (Nat.le_of_eq hws),
        ih _ (by rw [updateRowW_length, hws])]
  exact this t.rows _ (by simp)

theorem sepLine_normalizeTable (n : Nat) (widths : List Nat) (al : List String) :
    sepLine n widths
        ((al.take n ++ List.replicate (n - al.length) "none").map canonAlign)
      = sepLine n widths al := by
  unfold sepLine
  congr 1
  congr 1
  apply List.map_congr_left
  intro ci hci
  rw [getD_normAligns n ci al (List.mem_range.mp hci), sepBody_canonAlign]

theorem rowLine_normRow (n : Nat) (widths : List Nat) (r : List (List Char)) :
    rowLine n widths (normRow n r) = rowLine n widths r := by
  unfold rowLine
  congr 1
  congr 1
  apply List.map_congr_left
  intro ci hci
  rw [getD_normRow n ci r (List.mem_range.mp hci)]

/-- C10: `serialize_table` is a total function of the table value, and
out-of-range structure is rendered by defaulting rather than by
indexing: alignments shorter or longer than the header count behave as
if truncated/padded with `"none"`, unrecognized alignment strings behave
as `"none"`, and rows shorter or longer than the header count behave as
if truncated/padded with empty cells.  Formally, rendering is invariant
under that normalization. -/
theorem c10_serialize_total_normalized (t : MarkdownTable) :
    serialize_table (normalizeTable t) = serialize_table t := by
  unfold serialize_table serializeLines
  rw [widthsOf_normalizeTable]
  show joinTerm '\n'
      (headerLine (normalizeTable t).headers (widthsOf t)
        :: sepLine (normalizeTable t).headers.length (widthsOf t) (normalizeTable t).alignments
        :: (normalizeTable t).rows.map
            (rowLine (normalizeTable t).headers.length (widthsOf t)))
    = _
  have hhd : (normalizeTable t).headers = t.headers := rfl
  rw [hhd]
  have hal : (normalizeTable t).alignments
      = (t.alignments.take t.headers.length
          ++ List.replicate (t.headers.length - t.alignments.length) "none").map canonAlign :=
    rfl
  rw [hal, sepLine_normalizeTable]
  have hrows : (normalizeTable t).rows = t.rows.map (normRow t.headers.length) := rfl
  rw [hrows, List.map_map]
  have hmap : t.rows.map (rowLine t.headers.length (widthsOf t) ∘ normRow t.headers.length)
      = t.rows.map (rowLine t.headers.length (widthsOf t)) :=
    List.map_congr_left fun r _ => rowLine_normRow t.headers.length (widthsOf t) r
  rw [hmap]

/-! ### C7: the trailing-newline rule of the rebuilder -/

theorem serializeLines_ne_nil (t : MarkdownTable) : serializeLines t ≠ [] := by
  simp [serializeLines]

theorem serialize_table_getLast? (t : MarkdownTable) :
    (serialize_table t).getLast? = some '\n' :=
  joinTerm_getLast? '\n' _ (serializeLines_ne_nil t)

theorem rebuildAux_getLast? (ts : List MarkdownTable) (h : ts ≠ []) :
    ∀ (ls : List (List Char)) (c : Nat),
      (rebuildAux ls c ts).getLast? = some '\n' := by
  induction ts with
  | nil => exact absurd rfl h
  | cons t ts ih =>
    intro ls c
    simp only [rebuildAux]
    rw [List.getLast?_append, List.getLast?_append]
    cases ts with
    | nil =>
      simp only [rebuildAux]
      cases hdrop : ls.drop (t.end_line + 1) with
      | nil =>
        rw [joinTerm_nil, serialize_table_getLast?]
        rfl
      | cons d ds =>
        rw [joinTerm_getLast? '\n' _ (by simp)]
        rfl
    | cons t2 ts2 =>
      rw [ih (by simp) ls (t.end_line + 1)]
      rfl

/-- C7: with at least one table, the spliced result always ends with a
newline, and `rebuild_document` removes exactly one trailing newline
from it unless the last line of the original document is the empty
string, in which case the trailing newline is kept. -/
theorem c7_trailing_newline (ls : List (List Char)) (ts : List MarkdownTable)
    (hts : ts ≠ []) (hl : ls ≠ []) :
    (ls.getLast hl = [] → rebuild_document ls ts = rebuildAux ls 0 ts) ∧
    (ls.getLast hl ≠ [] → rebuild_document ls ts ++ ['\n'] = rebuildAux ls 0 ts) := by
  unfold rebuild_document
  rw [if_neg (by simp [hts])]
  have hr := rebuildAux_getLast? ts hts ls 0
  constructor
  · intro hlast
    have hempty : lastIsEmpty ls = true := by
      unfold lastIsEmpty
      rw [List.getLast?_eq_getLast ls hl]
      simp [hlast]
    rw [if_neg (by simp [hempty])]
  · intro hlast
    have hempty : lastIsEmpty ls = false := by
      unfold lastIsEmpty
      rw [List.getLast?_eq_getLast ls hl]
      simpa using hlast
    rw [if_pos (by simp [hempty, hr])]
    exact List.dropLast_append_getLast? '\n' (Option.mem_def.mpr hr)

/-- Witness for C7: a concrete parse whose original last line is
non-empty, so exactly one newline is trimmed. -/
theorem c7_witness :
    rebuild_document (parse_markdown ("| A |\n|---|\n| 1 |".toList)).lines
        (parse_markdown ("| A |\n|---|\n| 1 |".toList)).tables ++ ['\n']
      = rebuildAux (parse_markdown ("| A |\n|---|\n| 1 |".toList)).lines 0
          (parse_markdown ("| A |\n|---|\n| 1 |".toList)).tables :=
  (c7_trailing_newline _ _ (by decide) (by decide)).2 (by decide)

theorem nearestHeadingBefore_nil (s : Nat) :
    nearestHeadingBefore [] s = none := by
  induction s with
  | zero => rfl
  | succ s ih =>
    show (if startsHash (trimC (([] : List (List Char)).getD s [])) = true
        then _ else nearestHeadingBefore [] s) = none
    rw [if_neg (by simp [trimC, startsHash]), ih]

theorem nearestHeadingBefore_cons (x : List Char) (ls : List (List Char)) (k : Nat) :
    nearestHeadingBefore (x :: ls) (k + 1)
      = (nearestHeadingBefore ls k).or
          (if startsHash (trimC x) then some (headingText (trimC x)) else none) := by
  induction k with
  | zero =>
    show (if startsHash (trimC ((x :: ls).getD 0 [])) = true then _ else
        nearestHeadingBefore (x :: ls) 0) = _
    simp only [List.getD_cons_zero]
    rfl
  | succ k ih =>
    show (if startsHash (trimC ((x :: ls).getD (k + 1) [])) = true then
        some (headingText (trimC ((x :: ls).getD (k + 1) [])))
      else nearestHeadingBefore (x :: ls) (k + 1)) = _
    simp only [List.getD_cons_succ]
    by_cases hk : startsHash (trimC (ls.getD k [])) = true
    · rw [if_pos hk]
      show _ = (if startsHash (trimC (ls.getD k [])) = true then
          some (headingText (trimC (ls.getD k [])))
        else nearestHeadingBefore ls k).or _
      rw [if_pos hk]
      rfl
    · rw [if_neg hk, ih]
      show _ = (if startsHash (trimC (ls.getD k [])) = true then
          some (headingText (trimC (ls.getD k [])))
        else nearestHeadingBefore ls k).or _
      rw [if_neg hk]

theorem nearestHeadingBefore_shift (m : Nat) :
    ∀ (ls : List (List Char)) (k : Nat),
      (∀ j, j < m → startsHash (trimC (ls.getD j [])) = false) →
      nearestHeadingBefore ls (m + k) = nearestHeadingBefore (ls.drop m) k := by
  induction m with
  | zero =>
    intro ls k _
    rw [Nat.zero_add, List.drop_zero]
  | succ m ih =>
    intro ls k hno
    cases ls with
    | nil => rw [List.drop_nil, nearestHeadingBefore_nil, nearestHeadingBefore_nil]
    | cons x ls2 =>
      have hmk : m + 1 + k = (m + k) + 1 := by omega
      rw [hmk, nearestHeadingBefore_cons, if_neg (by
        have := hno 0 (by omega)
        simpa using this)]
      have hor : ∀ o : Option (List Char), o.or none = o := fun o => by cases o <;> rfl
      rw [hor, List.drop_succ_cons,
        ih ls2 k fun j hj => by simpa using hno (j + 1) (by omega)]

theorem is_separator_line_contains {l : List Char} (h : is_separator_line l = true) :
    (trimC l).contains '|' = true := by
  by_contra hc
  unfold is_separator_line at h
  rw [if_pos] at h
  · cases h
  · simp only [Bool.not_eq_true] at hc
    rw [hc]
    rfl

theorem collectRowsL_consumed (n : Nat) (ls : List (List Char)) :
    ∀ j, j < (collectRowsL n ls).1.length → is_table_line (ls.getD j []) = true := by
  induction ls with
  | nil => simp [collectRowsL]
  | cons l rest ih =>
    intro j hj
    simp only [collectRowsL] at hj
    split at hj
    · next hc =>
      cases j with
      | zero =>
        simpa using (Bool.and_eq_true_iff.mp hc).1
      | succ j2 =>
        rw [List.getD_cons_succ]
        exact ih j2 (by simpa using hj)
    · simp at hj

theorem scanF_heading (f : Nat) (ls : List (List Char)) (i : Nat)
    (h : Option (List Char)) :
    (∀ l ∈ ls, startsHash (trimC l) = true → (trimC l).contains '|' = false) →
    ∀ t ∈ scanF f ls i h,
      t.heading = (nearestHeadingBefore ls (t.start_line - i)).or h := by
  induction f, ls, i, h using scanF.induct with
  | case1 ls i h => simp [scanF_nil, scanF]
  | case2 n i h => simp [scanF]
  | case3 fuel l rest i h hh ih =>
    intro hd t ht
    simp only [scanF, hh, if_true] at ht
    have hge := scanF_start_ge fuel rest (i + 1) _ t ht
    have hih := ih (fun l2 hl2 => hd l2 (List.mem_cons_of_mem l hl2)) t ht
    have hk : t.start_line - i = (t.start_line - (i + 1)) + 1 := by omega
    rw [hk, nearestHeadingBefore_cons, if_pos hh, hih]
    cases nearestHeadingBefore rest (t.start_line - (i + 1)) <;> rfl
  | case4 fuel l i h hh =>
    intro hd t ht
    simp only [scanF, hh, Bool.false_eq_true, if_false] at ht
    exact absurd ht (List.not_mem_nil t)
  | case5 fuel l i h hh l1 rest2 hts headers cr ih =>
    have hhd : headers = parse_row l := rfl
    have hcr : cr = collectRowsL headers.length rest2 := rfl
    rw [hhd] at hcr
    rw [hcr] at ih
    intro hd t ht
    simp only [scanF, hh, Bool.false_eq_true, if_false, hts, if_true] at ht
    rcases List.mem_cons.mp ht with rfl | ht
    · simp only [Nat.sub_self]
      rfl
    · have hge := scanF_start_ge fuel _ _ h t ht
      set q := (collectRowsL (parse_row l).length rest2).1.length with hq
      have hdrop : (collectRowsL (parse_row l).length rest2).2 = rest2.drop q :=
        collectRowsL_snd_eq_drop _ _
      have hsub : ∀ l2 ∈ (collectRowsL (parse_row l).length rest2).2,
          l2 ∈ l :: l1 :: rest2 := by
        intro l2 hl2
        rw [hdrop] at hl2
        exact List.mem_cons_of_mem _ (List.mem_cons_of_mem _ (List.drop_subset _ rest2 hl2))
      have hih := ih (fun l2 hl2 hhash => hd l2 (hsub l2 hl2) hhash) t ht
      have hqle : q ≤ rest2.length := collectRowsL_fst_length_le _ _
      have hno : ∀ j, j < q + 2 →
          startsHash (trimC ((l :: l1 :: rest2).getD j [])) = false := by
        intro j hj
        match j with
        | 0 => simpa using hh
        | 1 =>
          rw [List.getD_cons_succ, List.getD_cons_zero]
          by_cases hhl1 : startsHash (trimC l1) = true
          · have hc := hd l1 (List.mem_cons_of_mem _ (List.mem_cons_self l1 rest2)) hhl1
            rw [is_separator_line_contains (Bool.and_eq_true_iff.mp hts).2] at hc
            cases hc
          · simpa using hhl1
        | j2 + 2 =>
          rw [List.getD_cons_succ, List.getD_cons_succ]
          have hj2 : j2 < q := by omega
          have htl := collectRowsL_consumed (parse_row l).length rest2 j2 hj2
          by_cases hhr : startsHash (trimC (rest2.getD j2 [])) = true
          · have hmem : rest2.getD j2 [] ∈ rest2 := getD_mem (by omega) []
            have hc := hd _ (List.mem_cons_of_mem _ (List.mem_cons_of_mem _ hmem)) hhr
            rw [is_table_line_contains htl] at hc
            cases hc
          · simpa using hhr
      have hk : t.start_line - i = (q + 2) + (t.start_line - (i + 2 + q)) := by omega
      rw [hk, nearestHeadingBefore_shift (q + 2) _ _ hno]
      have hdrop2 : (l :: l1 :: rest2).drop (q + 2) = rest2.drop q := by
        rw [show q + 2 = (q + 1) + 1 from rfl, List.drop_succ_cons, List.drop_succ_cons]
      rw [hdrop2, ← hdrop]
      exact hih
  | case6 fuel l i h hh l1 rest2 hts ih =>
    intro hd t ht
    simp only [scanF, hh, Bool.false_eq_true, if_false, hts] at ht
    have hge := scanF_start_ge fuel _ (i + 1) _ t ht
    have hih := ih (fun l2 hl2 => hd l2 (List.mem_cons_of_mem l hl2)) t ht
    have hk : t.start_line - i = (t.start_line - (i + 1)) + 1 := by omega
    rw [hk, nearestHeadingBefore_cons, if_neg (by simpa using hh)]
    have hor : ∀ o : Option (List Char), o.or none = o := fun o => by cases o <;> rfl
    rw [hor]
    exact hih

/-- C8 (amended): provided no line whose trimmed form starts with `'#'`
contains a pipe (so that no heading-like line can be consumed as a table
body row), each extracted table's heading is the text of the nearest
preceding line whose trimmed form starts with `'#'`, with the leading
`'#'` run and surrounding whitespace stripped, and `none` if no such
line precedes the table. -/
theorem c8_heading_nearest (content : List Char)
    (hd : ∀ l ∈ linesOf content,
      startsHash (trimC l) = true → (trimC l).contains '|' = false) :
    ∀ t ∈ (parse_markdown content).tables,
      t.heading = nearestHeadingBefore (parse_markdown content).lines t.start_line := by
  intro t ht
  have hh := scanF_heading _ _ 0 none hd t ht
  rw [Nat.sub_zero] at hh
  have hor : ∀ o : Option (List Char), o.or none = o := fun o => by cases o <;> rfl
  rw [hor] at hh
  exact hh

/-- Witness for C8: the claim's concrete example
`"# Title\n\n| A |\n|---|\n| 1 |\n"` yields heading `"Title"`. -/
theorem c8_witness :
    ((parse_markdown ("# Title\n\n| A |\n|---|\n| 1 |\n".toList)).tables.getD 0
          default).heading
        = nearestHeadingBefore (parse_markdown ("# Title\n\n| A |\n|---|\n| 1 |\n".toList)).lines
            ((parse_markdown ("# Title\n\n| A |\n|---|\n| 1 |\n".toList)).tables.getD 0
              default).start_line
      ∧ ((parse_markdown ("# Title\n\n| A |\n|---|\n| 1 |\n".toList)).tables.getD 0
          default).heading = some ("Title".toList) :=
  ⟨c8_heading_nearest ("# Title\n\n| A |\n|---|\n| 1 |\n".toList) (by decide) _ (by decide),
    by decide⟩

/-- C8 counterexample: in the document
`"# T\n|h|\n|-|\n# x | y\n\n|a|\n|-|\n"` the second table starts at
line 5, the nearest preceding `'#'`-line is line 3 with text `"x | y"`,
but the extracted heading is the older `"T"`: the `'#'`-line at index 3
was consumed as a body row of the first table. -/
theorem c8_counterexample :
    ((parse_markdown ("# T\n|h|\n|-|\n# x | y\n\n|a|\n|-|\n".toList)).tables.getD 1
          default).start_line = 5
      ∧ nearestHeadingBefore
          (parse_markdown ("# T\n|h|\n|-|\n# x | y\n\n|a|\n|-|\n".toList)).lines 5
        = some ("x | y".toList)
      ∧ ((parse_markdown ("# T\n|h|\n|-|\n# x | y\n\n|a|\n|-|\n".toList)).tables.getD 1
          default).heading = some ("T".toList)
      ∧ ((parse_markdown ("# T\n|h|\n|-|\n# x | y\n\n|a|\n|-|\n".toList)).tables.getD 1
          default).heading
        ≠ nearestHeadingBefore
            (parse_markdown ("# T\n|h|\n|-|\n# x | y\n\n|a|\n|-|\n".toList)).lines 5 := by
  decide

/-! ### Splitting the rebuilt text back into lines -/

theorem joinTerm_append (c : Char) (l1 l2 : List (List Char)) :
    joinTerm c (l1 ++ l2) = joinTerm c l1 ++ joinTerm c l2 := by
  simp [joinTerm]

theorem mem_stripCR_sub {l : List Char} : ∀ a ∈ stripCR l, a ∈ l := by
  intro a ha
  unfold stripCR at ha
  split at ha
  · exact (List.dropLast_sublist _).subset ha
  · exact ha

theorem trimC_stripCR (l : List Char) : trimC (stripCR l) = trimC l := by
  unfold stripCR
  split
  · next hget =>
    conv_rhs => rw [← List.dropLast_append_getLast? '\r' (Option.mem_def.mpr hget)]
    refine (trimC_append_ws_right ?_).symm
    intro a ha
    simp only [List.mem_singleton] at ha
    rw [ha]
    decide
  · rfl

theorem linesOf_noNl (content : List Char) :
    ∀ l ∈ linesOf content, ('\n' : Char) ∉ l := by
  intro l hl hmem
  unfold linesOf at hl
  obtain ⟨p, hp, rfl⟩ := List.mem_map.mp hl
  have hp2 : p ∈ splitOnC '\n' content := by
    split at hp
    · exact (List.dropLast_sublist _).subset hp
    · exact hp
  exact not_mem_of_mem_splitOnC p hp2 (mem_stripCR_sub _ hmem)

theorem linesOf_joinTerm (ls : List (List Char)) (h : ∀ l ∈ ls, ('\n' : Char) ∉ l) :
    linesOf (joinTerm '\n' ls) = ls.map stripCR := by
  unfold linesOf
  rw [splitOnC_joinTerm '\n' ls h, List.getLast?_concat,
    if_pos rfl, List.dropLast_concat]

theorem linesOf_joinTerm_dropLast (ls : List (List Char)) (hne : ls ≠ [])
    (h : ∀ l ∈ ls, ('\n' : Char) ∉ l) :
    linesOf ((joinTerm '\n' ls).dropLast)
      = (if ls.getLast hne = [] then ls.dropLast else ls).map stripCR := by
  have hdec : ls.dropLast ++ [ls.getLast hne] = ls := List.dropLast_concat_getLast hne
  have hnoNl_last : ('\n' : Char) ∉ ls.getLast hne :=
    h _ (List.getLast_mem hne)
  have hnoNl_drop : ∀ l ∈ ls.dropLast, ('\n' : Char) ∉ l :=
    fun l hl => h l ((List.dropLast_sublist _).subset hl)
  have hjoin : joinTerm '\n' ls
      = joinTerm '\n' ls.dropLast ++ (ls.getLast hne ++ ['\n']) := by
    conv_lhs => rw [← hdec]
    rw [joinTerm_append, joinTerm_cons, joinTerm_nil]
  have hdropLast : (joinTerm '\n' ls).dropLast
      = joinTerm '\n' ls.dropLast ++ ls.getLast hne := by
    rw [hjoin, List.dropLast_append_of_ne_nil _ (by simp), List.dropLast_concat]
  rw [hdropLast]
  unfold linesOf
  rw [splitOnC_joinTerm_append '\n' _ _ hnoNl_drop,
    splitOnC_eq_single hnoNl_last, List.getLast?_concat]
  by_cases hlast : ls.getLast hne = []
  · rw [if_pos (by rw [hlast]), if_pos hlast, hlast, List.dropLast_concat]
  · rw [if_neg (by simpa using hlast), if_neg hlast, List.map_append, ← List.map_append,
      hdec]

theorem linesOf_intercalate (ls : List (List Char)) (hne : ls ≠ [])
    (h : ∀ l ∈ ls, ('\n' : Char) ∉ l) :
    linesOf (List.intercalate ['\n'] ls)
      = (if ls.getLast hne = [] then ls.dropLast else ls).map stripCR := by
  rw [← dropLast_joinTerm '\n' ls hne]
  exact linesOf_joinTerm_dropLast ls hne h

theorem WFt_mono {c c' : Nat} {ts : List MarkdownTable} (h : c' ≤ c) (hw : WFt c ts) :
    WFt c' ts := by
  cases ts with
  | nil => trivial
  | cons t ts => exact ⟨le_trans h hw.1, hw.2⟩

theorem scanF_WFt (f : Nat) (ls : List (List Char)) (i : Nat) (h : Option (List Char)) :
    WFt i (scanF f ls i h) := by
  induction f, ls, i, h using scanF.induct with
  | case1 ls i h => rw [show scanF 0 ls i h = [] from rfl]; trivial
  | case2 n i h => rw [scanF_nil]; trivial
  | case3 fuel l rest i h hh ih =>
    simp only [scanF, hh, if_true]
    exact WFt_mono (Nat.le_succ i) ih
  | case4 fuel l i h hh =>
    simp only [scanF, hh, Bool.false_eq_true, if_false]
    trivial
  | case5 fuel l i h hh l1 rest2 hts headers cr ih =>
    have hhd : headers = parse_row l := rfl
    have hcr : cr = collectRowsL headers.length rest2 := rfl
    rw [hhd] at hcr
    rw [hcr] at ih
    simp only [scanF, hh, Bool.false_eq_true, if_false, hts, if_true]
    refine ⟨Nat.le_refl i, by simp, ?_⟩
    have harith : i + 1 + (collectRowsL (parse_row l).length rest2).1.length + 1
        = i + 2 + (collectRowsL (parse_row l).length rest2).1.length := by omega
    show WFt (i + 1 + (collectRowsL (parse_row l).length rest2).1.length + 1) _
    rw [harith]
    exact ih
  | case6 fuel l i h hh l1 rest2 hts ih =>
    simp only [scanF, hh, Bool.false_eq_true, if_false, hts]
    exact WFt_mono (Nat.le_succ i) ih

theorem rebuildAux_eq (ts : List MarkdownTable) :
    ∀ (ls : List (List Char)) (c : Nat), WFt c ts →
      rebuildAux ls c ts = joinTerm '\n' (rebuiltTail (ls.drop c) c ts) := by
  induction ts with
  | nil => intro ls c _; rfl
  | cons t ts ih =>
    intro ls c hw
    obtain ⟨h1, h2, h3⟩ := hw
    simp only [rebuildAux, rebuiltTail]
    rw [ih ls (t.end_line + 1) h3, joinTerm_append, joinTerm_append,
      List.drop_drop, show c + (t.end_line + 1 - c) = t.end_line + 1 by omega]
    rfl

theorem rebuiltTail_cons (x : List Char) (rest : List (List Char)) (c : Nat)
    (ts : List MarkdownTable) (hw : WFt (c + 1) ts) :
    rebuiltTail (x :: rest) c ts = x :: rebuiltTail rest (c + 1) ts := by
  cases ts with
  | nil => rfl
  | cons t ts2 =>
    obtain ⟨h1, h2, _⟩ := hw
    have htake : (x :: rest).take (t.start_line - c)
        = x :: rest.take (t.start_line - (c + 1)) := by
      rw [show t.start_line - c = (t.start_line - (c + 1)) + 1 by omega,
        List.take_succ_cons]
    have hdrop : (x :: rest).drop (t.end_line + 1 - c)
        = rest.drop (t.end_line + 1 - (c + 1)) := by
      rw [show t.end_line + 1 - c = (t.end_line + 1 - (c + 1)) + 1 by omega,
        List.drop_succ_cons]
    simp only [rebuiltTail, htake, hdrop, List.cons_append]

theorem serializeLines_all_ne_empty (t : MarkdownTable) :
    ∀ l ∈ serializeLines t, l ≠ [] := by
  intro l hl
  unfold serializeLines at hl
  rcases List.mem_cons.mp hl with rfl | hl
  · simp [headerLine]
  rcases List.mem_cons.mp hl with rfl | hl
  · simp [sepLine]
  · obtain ⟨r, _, rfl⟩ := List.mem_map.mp hl
    simp [rowLine]

theorem rebuiltTail_cons_ne_nil (rest : List (List Char)) (c : Nat)
    (t : MarkdownTable) (ts : List MarkdownTable) :
    rebuiltTail rest c (t :: ts) ≠ [] := by
  simp [rebuiltTail, serializeLines]

theorem getLast?_drop_ne_nil (k : Nat) :
    ∀ (l : List (List Char)), l.drop k ≠ [] → (l.drop k).getLast? = l.getLast? := by
  induction k with
  | zero => intro l _; rfl
  | succ k ih =>
    intro l h
    cases l with
    | nil => simp at h
    | cons x xs =>
      rw [List.drop_succ_cons] at h ⊢
      rw [ih xs h]
      cases xs with
      | nil => rw [List.drop_nil] at h; exact absurd rfl h
      | cons y ys => rw [List.getLast?_cons_cons]

theorem rebuiltTail_last_ne (ts : List MarkdownTable) :
    ∀ (rest : List (List Char)) (c : Nat), ts ≠ [] →
      (rest.getLast? = some [] → False) →
      ∀ x, (rebuiltTail rest c ts).getLast? = some x → x ≠ [] := by
  induction ts with
  | nil => intro _ _ h; exact absurd rfl h
  | cons t ts2 ih =>
    intro rest c _ hrest x hx
    simp only [rebuiltTail] at hx
    rw [List.getLast?_append, List.getLast?_append] at hx
    have hSL : (serializeLines t).getLast?
        = some ((serializeLines t).getLast (serializeLines_ne_nil t)) :=
      List.getLast?_eq_getLast _ _
    cases ts2 with
    | nil =>
      rw [show rebuiltTail (rest.drop (t.end_line + 1 - c)) (t.end_line + 1) [] =
        rest.drop (t.end_line + 1 - c) from rfl] at hx
      cases hd : rest.drop (t.end_line + 1 - c) with
      | nil =>
        rw [hd] at hx
        rw [hSL] at hx
        simp only [List.getLast?_nil, Option.none_or, Option.or_some] at hx
        rw [← Option.some.inj hx]
        exact serializeLines_all_ne_empty t _ (List.getLast_mem _)
      | cons d ds =>
        have hdn : rest.drop (t.end_line + 1 - c) ≠ [] := by rw [hd]; simp
        rw [getLast?_drop_ne_nil _ rest hdn] at hx
        have hrne : rest ≠ [] := by
          intro he
          rw [he, List.drop_nil] at hdn
          exact hdn rfl
        rw [List.getLast?_eq_getLast rest hrne] at hx
        simp only [Option.or_some] at hx
        rw [← Option.some.inj hx]
        intro he
        exact hrest (by rw [List.getLast?_eq_getLast rest hrne, he])
    | cons t3 ts3 =>
      have hne := rebuiltTail_cons_ne_nil (rest.drop (t.end_line + 1 - c))
        (t.end_line + 1) t3 ts3
      have hlast := List.getLast?_eq_getLast _ hne
      rw [hlast] at hx
      simp only [Option.or_some] at hx
      rw [← Option.some.inj hx]
      refine ih (rest.drop (t.end_line + 1 - c)) (t.end_line + 1) (by simp) ?_ _ hlast
      intro hdz
      have hdn : rest.drop (t.end_line + 1 - c) ≠ [] := by
        intro he
        rw [he] at hdz
        cases hdz
      rw [getLast?_drop_ne_nil _ rest hdn] at hdz
      exact hrest hdz

theorem is_table_line_congr {a b : List Char} (h : trimC a = trimC b) :
    is_table_line a = is_table_line b := by
  unfold is_table_line
  rw [h]

theorem is_separator_line_congr {a b : List Char} (h : trimC a = trimC b) :
    is_separator_line a = is_separator_line b := by
  unfold is_separator_line
  rw [h]

theorem parse_row_congr {a b : List Char} (h : trimC a = trimC b) :
    parse_row a = parse_row b := by
  unfold parse_row
  rw [h]

theorem parse_alignments_congr {a b : List Char} (h : trimC a = trimC b) :
    parse_alignments a = parse_alignments b := by
  unfold parse_alignments
  rw [h]

theorem collectRowsL_congr (n : Nat) {ls ls' : List (List Char)}
    (hf : List.Forall₂ trimEq ls ls') :
    (collectRowsL n ls).1 = (collectRowsL n ls').1 ∧
      List.Forall₂ trimEq (collectRowsL n ls).2 (collectRowsL n ls').2 := by
  induction hf with
  | nil => exact ⟨rfl, List.Forall₂.nil⟩
  | cons hab hrest ih =>
    simp only [collectRowsL]
    rw [is_table_line_congr hab, is_separator_line_congr hab]
    split
    · exact ⟨by rw [parse_row_congr hab, ih.1], ih.2⟩
    · exact ⟨rfl, List.Forall₂.cons hab hrest⟩

theorem scanF_cons_single_eq (f : Nat) (l : List Char) (i : Nat)
    (h : Option (List Char)) :
    scanF (f + 1) [l] i h =
      if startsHash (trimC l) then scanF f [] (i + 1) (some (headingText (trimC l)))
      else [] := rfl

theorem scanF_cons₂_eq (f : Nat) (l l1 : List Char) (rest2 : List (List Char))
    (i : Nat) (h : Option (List Char)) :
    scanF (f + 1) (l :: l1 :: rest2) i h =
      if startsHash (trimC l) then
        scanF f (l1 :: rest2) (i + 1) (some (headingText (trimC l)))
      else if is_table_line l && is_separator_line l1 then
        { heading := h, headers := parse_row l, alignments := parse_alignments l1,
          rows := (collectRowsL (parse_row l).length rest2).1, start_line := i,
          end_line := i + 1 + (collectRowsL (parse_row l).length rest2).1.length }
          :: scanF f (collectRowsL (parse_row l).length rest2).2
              (i + 2 + (collectRowsL (parse_row l).length rest2).1.length) h
      else scanF f (l1 :: rest2) (i + 1) h := rfl

theorem scanF_congr (f : Nat) :
    ∀ (f' : Nat) (ls ls' : List (List Char)) (i : Nat) (h : Option (List Char)),
      ls.length ≤ f → ls'.length ≤ f' → List.Forall₂ trimEq ls ls' →
      scanF f ls i h = scanF f' ls' i h := by
  induction f with
  | zero =>
    intro f' ls ls' i h hf _ hrel
    have h0 : ls = [] := List.length_eq_zero.mp (Nat.le_zero.mp hf)
    subst h0
    cases hrel
    rw [scanF_nil, scanF_nil]
  | succ f ih =>
    intro f' ls ls' i h hf hf' hrel
    cases hrel with
    | nil => rw [scanF_nil, scanF_nil]
    | @cons a b as bs hab htail =>
      cases f' with
      | zero => simp at hf'
      | succ f' =>
        simp only [List.length_cons, Nat.add_le_add_iff_right] at hf hf'
        have hab2 : trimC a = trimC b := hab
        cases htail with
        | nil =>
          rw [scanF_cons_single_eq, scanF_cons_single_eq, hab2]
          by_cases hh : startsHash (trimC b) = true
          · rw [if_pos hh, if_pos hh, scanF_nil, scanF_nil]
          · rw [if_neg hh, if_neg hh]
        | @cons a2 b2 as2 bs2 hab3 htail2 =>
          have hab4 : trimC a2 = trimC b2 := hab3
          simp only [List.length_cons] at hf hf'
          rw [scanF_cons₂_eq, scanF_cons₂_eq, hab2, is_table_line_congr hab2,
            is_separator_line_congr hab4, parse_row_congr hab2,
            parse_alignments_congr hab4]
          by_cases hh : startsHash (trimC b) = true
          · rw [if_pos hh, if_pos hh]
            exact ih f' _ _ _ _ (by simp only [List.length_cons]; omega)
              (by simp only [List.length_cons]; omega) (List.Forall₂.cons hab3 htail2)
          · rw [if_neg hh, if_neg hh]
            by_cases hts : (is_table_line b && is_separator_line b2) = true
            · rw [if_pos hts, if_pos hts]
              have hcr := collectRowsL_congr (parse_row b).length htail2
              have hlen := hcr.2.length_eq
              rw [hcr.1]
              refine congrArg _ (ih f' _ _ _ _ ?_ ?_ hcr.2)
              · have := collectRowsL_snd_length_le (parse_row b).length as2
                omega
              · have := collectRowsL_snd_length_le (parse_row b).length bs2
                omega
            · rw [if_neg hts, if_neg hts]
              exact ih f' _ _ _ _ (by simp only [List.length_cons]; omega)
                (by simp only [List.length_cons]; omega)
                (List.Forall₂.cons hab3 htail2)

theorem forall₂_trimEq_stripCR (ls : List (List Char)) :
    List.Forall₂ trimEq (ls.map stripCR) ls := by
  induction ls with
  | nil => exact List.Forall₂.nil
  | cons l rest ih => exact List.Forall₂.cons (trimC_stripCR l) ih

/-! ### Table-freeness survives restriction to an initial segment -/

theorem scanF_single (g : Nat) (l : List Char) (p : Nat) (h' : Option (List Char)) :
    scanF g [l] p h' = [] := by
  cases g with
  | zero => rfl
  | succ g =>
    simp only [scanF]
    split
    · exact scanF_nil g (p + 1) _
    · rfl

theorem scanF_nil_dropLast (f : Nat) (ls : List (List Char)) (i : Nat)
    (h : Option (List Char)) :
    ls.length ≤ f → scanF f ls i h = [] →
    ∀ (g i' : Nat) (h' : Option (List Char)),
      scanF g ls.dropLast i' h' = [] := by
  induction f, ls, i, h using scanF.induct with
  | case1 ls i h =>
    intro hf _ g i' h'
    rw [List.length_eq_zero.mp (Nat.le_zero.mp hf)]
    exact scanF_nil g i' h'
  | case2 n i h =>
    intro _ _ g i' h'
    exact scanF_nil g i' h'
  | case3 fuel l rest i h hh ih =>
    intro hf he g i' h'
    simp only [scanF, hh, if_true] at he
    simp only [List.length_cons] at hf
    cases rest with
    | nil => exact scanF_nil g i' h'
    | cons r rs =>
      rw [List.dropLast_cons₂]
      cases g with
      | zero => rfl
      | succ g =>
        simp only [scanF, hh, if_true]
        exact ih (by simp only [List.length_cons] at hf ⊢; omega) he g (i' + 1) _
  | case4 fuel l i h hh =>
    intro _ _ g i' h'
    rw [List.dropLast_single]
    exact scanF_nil g i' h'
  | case5 fuel l i h hh l1 rest2 hts headers cr ih =>
    intro _ he
    simp only [scanF, hh, Bool.false_eq_true, if_false, hts, if_true] at he
    exact absurd he (by simp)
  | case6 fuel l i h hh l1 rest2 hts ih =>
    intro hf he g i' h'
    simp only [scanF, hh, Bool.false_eq_true, if_false, hts] at he
    simp only [List.length_cons] at hf
    cases rest2 with
    | nil =>
      rw [List.dropLast_cons₂, List.dropLast_single]
      exact scanF_single g l i' h'
    | cons r rs =>
      rw [List.dropLast_cons₂]
      cases g with
      | zero => rfl
      | succ g =>
        simp only [scanF, hh, Bool.false_eq_true, if_false]
        rw [List.dropLast_cons₂]
        have hrec := ih (by simp only [List.length_cons] at hf ⊢; omega) he g (i' + 1) h'
        rw [List.dropLast_cons₂] at hrec
        simp only [hts, Bool.false_eq_true, if_false]
        exact hrec

/-! ### The first table of a scan starts at a table line -/

theorem resizeRow_self (n : Nat) (row : List (List Char)) (h : row.length = n) :
    resizeRow n row = row := by
  subst h
  simp [resizeRow]

theorem scanF_first (f : Nat) (ls : List (List Char)) (i : Nat)
    (h : Option (List Char)) :
    ∀ t ts2, scanF f ls i h = t :: ts2 →
      ∃ x r, ls.drop (t.start_line - i) = x :: r ∧ is_table_line x = true ∧
        t.headers = parse_row x := by
  induction f, ls, i, h using scanF.induct with
  | case1 ls i h =>
    intro t ts2 he
    rw [show scanF 0 ls i h = [] from rfl] at he
    exact List.noConfusion he
  | case2 n i h =>
    intro t ts2 he
    rw [scanF_nil] at he
    exact List.noConfusion he
  | case3 fuel l rest i h hh ih =>
    intro t ts2 he
    simp only [scanF, hh, if_true] at he
    obtain ⟨x, r, hdrop, htab, hhd⟩ := ih t ts2 he
    have hge : i + 1 ≤ t.start_line :=
      scanF_start_ge fuel rest (i + 1) _ t (by rw [he]; exact List.mem_cons_self t ts2)
    refine ⟨x, r, ?_, htab, hhd⟩
    rw [show t.start_line - i = (t.start_line - (i + 1)) + 1 by omega,
      List.drop_succ_cons, hdrop]
  | case4 fuel l i h hh =>
    intro t ts2 he
    simp only [scanF, hh, Bool.false_eq_true, if_false] at he
    exact List.noConfusion he
  | case5 fuel l i h hh l1 rest2 hts headers cr ih =>
    have hhd : headers = parse_row l := rfl
    have hcr : cr = collectRowsL headers.length rest2 := rfl
    rw [hhd] at hcr
    rw [hcr] at ih
    intro t ts2 he
    simp only [scanF, hh, Bool.false_eq_true, if_false, hts, if_true] at he
    rw [List.cons.injEq] at he
    obtain ⟨ht1, -⟩ := he
    subst ht1
    refine ⟨l, l1 :: rest2, ?_, (Bool.and_eq_true_iff.mp hts).1, rfl⟩
    show (l :: l1 :: rest2).drop (i - i) = l :: l1 :: rest2
    rw [Nat.sub_self, List.drop_zero]
  | case6 fuel l i h hh l1 rest2 hts ih =>
    intro t ts2 he
    simp only [scanF, hh, Bool.false_eq_true, if_false, hts] at he
    obtain ⟨x, r, hdrop, htab, hhd⟩ := ih t ts2 he
    have hge : i + 1 ≤ t.start_line :=
      scanF_start_ge fuel (l1 :: rest2) (i + 1) _ t
        (by rw [he]; exact List.mem_cons_self t ts2)
    refine ⟨x, r, ?_, htab, hhd⟩
    rw [show t.start_line - i = (t.start_line - (i + 1)) + 1 by omega,
      List.drop_succ_cons, hdrop]

theorem rebuiltTail_cons_table (rest : List (List Char)) (c : Nat) (T : MarkdownTable)
    (ts : List MarkdownTable) (hs : T.start_line = c) :
    rebuiltTail rest c (T :: ts)
      = serializeLines T
          ++ rebuiltTail (rest.drop (T.end_line + 1 - c)) (T.end_line + 1) ts := by
  simp only [rebuiltTail, hs, Nat.sub_self, List.take_zero, List.nil_append]

/-- If the scanned suffix is empty or starts with a line at which the
row-collection loop would stop, the rebuilt suffix has the same
property: either it is the head of the original suffix, or it is the
rendered header line of a table whose original header line was itself
a separator line. -/
theorem rebuiltTail_stop (f : Nat) (ls : List (List Char)) (i : Nat)
    (h : Option (List Char)) (hf : ls.length ≤ f)
    (hstop : ls = [] ∨ ∃ x r, ls = x :: r ∧
      (is_table_line x && !is_separator_line x) = false) :
    rebuiltTail ls i (scanF f ls i h) = [] ∨
      ∃ x r, rebuiltTail ls i (scanF f ls i h) = x :: r ∧
        (is_table_line x && !is_separator_line x) = false := by
  cases hscan : scanF f ls i h with
  | nil =>
    rw [show rebuiltTail ls i [] = ls from rfl]
    exact hstop
  | cons t ts2 =>
    rcases hstop with rfl | ⟨x, r, rfl, hxf⟩
    · rw [scanF_nil] at hscan
      exact List.noConfusion hscan
    have hge : i ≤ t.start_line :=
      scanF_start_ge f (x :: r) i h t (by rw [hscan]; exact List.mem_cons_self t ts2)
    by_cases hlt : i < t.start_line
    · refine Or.inr ⟨x, r.take (t.start_line - (i + 1)) ++ serializeLines t
        ++ rebuiltTail ((x :: r).drop (t.end_line + 1 - i)) (t.end_line + 1) ts2,
        ?_, hxf⟩
      simp only [rebuiltTail]
      rw [show t.start_line - i = (t.start_line - (i + 1)) + 1 by omega,
        List.take_succ_cons, List.cons_append, List.cons_append]
    · have hstart : t.start_line = i := by omega
      obtain ⟨x0, r0, hdrop, htab, hhd⟩ := scanF_first f (x :: r) i h t ts2 hscan
      rw [hstart, Nat.sub_self, List.drop_zero] at hdrop
      rw [List.cons.injEq] at hdrop
      obtain ⟨rfl, rfl⟩ := hdrop
      have hsep : is_separator_line x = true := by
        rw [htab] at hxf
        simpa using hxf
    -- the original header line of `t` is separator-like, so its rendered
    -- form is again a separator line and the collection stops there
      have hall : (parse_row x).all sepCellB = true := by
        rw [← is_separator_line_eq_all x (is_table_line_contains htab)]
        exact hsep
      have hhsep : is_separator_line (headerLine t.headers (widthsOf t)) = true := by
        rw [is_separator_line_headerLine t.headers (widthsOf t)
          (by rw [hhd]; exact parse_row_ne_nil x)
          (by rw [hhd]; exact parse_row_trim_stable x)
          (by rw [hhd]; exact parse_row_no_pipe x), hhd]
        exact hall
      refine Or.inr ⟨headerLine t.headers (widthsOf t),
        sepLine t.headers.length (widthsOf t) t.alignments
          :: (t.rows.map (rowLine t.headers.length (widthsOf t))
            ++ rebuiltTail ((x :: r).drop (t.end_line + 1 - i)) (t.end_line + 1) ts2),
        ?_, by rw [hhsep]; simp⟩
      rw [rebuiltTail_cons_table (x :: r) i t ts2 hstart]
      simp only [serializeLines, List.cons_append, List.append_assoc]

/-- Collecting body rows over the rendered row lines of a table whose
rows are all non-separator-like recovers exactly those rows and stops
at the appended tail. -/
theorem collectRowsL_rowLines (n : Nat) (widths : List Nat) (hn : n ≠ 0) :
    ∀ (rows : List (List (List Char))) (tail : List (List Char)),
      (∀ r ∈ rows, r.length = n) →
      (∀ r ∈ rows, ∀ s ∈ r, trimC s = s ∧ ('|' : Char) ∉ s) →
      (∀ r ∈ rows, r.all sepCellB = false) →
      (tail = [] ∨ ∃ x xr, tail = x :: xr ∧
        (is_table_line x && !is_separator_line x) = false) →
      collectRowsL n (rows.map (rowLine n widths) ++ tail) = (rows, tail) := by
  intro rows
  induction rows with
  | nil =>
    intro tail _ _ _ hstop
    rcases hstop with rfl | ⟨x, xr, rfl, hxf⟩
    · rfl
    · simp only [List.map_nil, List.nil_append, collectRowsL, hxf,
        Bool.false_eq_true, if_false]
  | cons r rows ih =>
    intro tail hlen hcell hsep hstop
    have h1 : is_table_line (rowLine n widths r) = true :=
      is_table_line_rowLine n widths r
    have h2 : is_separator_line (rowLine n widths r) = false := by
      rw [is_separator_line_rowLine n widths r hn
        (hlen r (List.mem_cons_self r rows))
        (fun s hs => (hcell r (List.mem_cons_self r rows) s hs).1)
        (fun s hs => (hcell r (List.mem_cons_self r rows) s hs).2)]
      exact hsep r (List.mem_cons_self r rows)
    simp only [List.map_cons, List.cons_append, collectRowsL, h1, h2,
      Bool.not_false, Bool.and_self, if_true, List.append_eq]
    rw [parse_row_rowLine n widths r hn (hlen r (List.mem_cons_self r rows))
        (fun s hs => (hcell r (List.mem_cons_self r rows) s hs).1)
        (fun s hs => (hcell r (List.mem_cons_self r rows) s hs).2),
      resizeRow_self n r (hlen r (List.mem_cons_self r rows)),
      ih tail (fun q hq => hlen q (List.mem_cons_of_mem r hq))
        (fun q hq => hcell q (List.mem_cons_of_mem r hq))
        (fun q hq => hsep q (List.mem_cons_of_mem r hq)) hstop]

/-- Scanning the serialized lines of a table followed by a tail at which
row collection stops yields one table with the same headers and rows,
then continues on the tail. -/
theorem scanF_serialized (T : MarkdownTable) (tail : List (List Char)) (g p : Nat)
    (h' : Option (List Char))
    (hn : T.headers ≠ [])
    (hth : ∀ s ∈ T.headers, trimC s = s)
    (hnp : ∀ s ∈ T.headers, ('|' : Char) ∉ s)
    (hlen : ∀ r ∈ T.rows, r.length = T.headers.length)
    (hcell : ∀ r ∈ T.rows, ∀ s ∈ r, trimC s = s ∧ ('|' : Char) ∉ s)
    (hsep : ∀ r ∈ T.rows, r.all sepCellB = false)
    (hstop : tail = [] ∨ ∃ x xr, tail = x :: xr ∧
      (is_table_line x && !is_separator_line x) = false)
    (hg : (serializeLines T ++ tail).length ≤ g) :
    scanF g (serializeLines T ++ tail) p h'
      = (⟨h', T.headers,
          parse_alignments (sepLine T.headers.length (widthsOf T) T.alignments),
          T.rows, p, p + 1 + T.rows.length⟩ : MarkdownTable)
        :: scanF tail.length tail (p + 2 + T.rows.length) h' := by
  have hlen0 : T.headers.length ≠ 0 := fun h0 => hn (List.length_eq_zero.mp h0)
  have hunf : serializeLines T ++ tail
      = headerLine T.headers (widthsOf T)
        :: sepLine T.headers.length (widthsOf T) T.alignments
        :: (T.rows.map (rowLine T.headers.length (widthsOf T)) ++ tail) := rfl
  rw [hunf] at hg ⊢
  cases g with
  | zero =>
    simp only [List.length_cons] at hg
    omega
  | succ g0 =>
    have hH : startsHash (trimC (headerLine T.headers (widthsOf T))) = false := by
      rw [headerLine_bodies]
      exact startsHash_pipeLine _
    have hT : is_table_line (headerLine T.headers (widthsOf T)) = true :=
      is_table_line_headerLine _ _
    have hS : is_separator_line
        (sepLine T.headers.length (widthsOf T) T.alignments) = true :=
      is_separator_line_sepLine _ _ _ hlen0
    simp only [scanF, hH, Bool.false_eq_true, if_false, hT, hS, Bool.and_self,
      if_true]
    rw [parse_row_headerLine T.headers (widthsOf T) hn hth hnp,
      collectRowsL_rowLines T.headers.length (widthsOf T) hlen0 T.rows tail
        hlen hcell hsep hstop]
    have hfuel : scanF g0 tail (p + 2 + T.rows.length) h'
        = scanF tail.length tail (p + 2 + T.rows.length) h' := by
      apply scanF_fuel_irrel
      · simp only [List.length_cons, List.length_append, List.length_map] at hg
        omega
      · exact Nat.le_refl _
    show (⟨h', T.headers,
        parse_alignments (sepLine T.headers.length (widthsOf T) T.alignments),
        T.rows, p, p + 1 + T.rows.length⟩ : MarkdownTable)
        :: scanF g0 tail (p + 2 + T.rows.length) h' = _
    rw [hfuel]

/-- Rescanning the rebuilt line list reproduces the headers and rows of
every extracted table, provided no extracted body row is
separator-like. -/
theorem scanF_sim (f : Nat) (ls : List (List Char)) (i : Nat)
    (h : Option (List Char)) :
    ls.length ≤ f →
    (∀ t ∈ scanF f ls i h, ∀ r ∈ t.rows, r.all sepCellB = false) →
    ∀ (g p : Nat) (h' : Option (List Char)),
      (rebuiltTail ls i (scanF f ls i h)).length ≤ g →
      (scanF g (rebuiltTail ls i (scanF f ls i h)) p h').map
          (fun t => (t.headers, t.rows))
        = (scanF f ls i h).map fun t => (t.headers, t.rows) := by
  induction f, ls, i, h using scanF.induct with
  | case1 ls i h =>
    intro hf _ g p h' _
    have h0 : ls = [] := List.length_eq_zero.mp (Nat.le_zero.mp hf)
    subst h0
    rw [show scanF 0 [] i h = [] from rfl, show rebuiltTail [] i [] = [] from rfl,
      scanF_nil]
  | case2 n i h =>
    intro _ _ g p h' _
    rw [scanF_nil, show rebuiltTail [] i [] = [] from rfl, scanF_nil]
  | case3 fuel l rest i h hh ih =>
    intro hf H g p h' hg
    simp only [scanF, hh, if_true] at H hg ⊢
    rw [rebuiltTail_cons l rest i _ (scanF_WFt fuel rest (i + 1) _)] at hg ⊢
    cases g with
    | zero => simp at hg
    | succ g0 =>
      simp only [scanF, hh, if_true]
      exact ih (by simp only [List.length_cons] at hf; omega) H g0 (p + 1) _
        (by simp only [List.length_cons] at hg; omega)
  | case4 fuel l i h hh =>
    intro _ _ g p h' _
    simp only [scanF, hh, Bool.false_eq_true, if_false]
    rw [show rebuiltTail [l] i [] = [l] from rfl, scanF_single]
  | case5 fuel l i h hh l1 rest2 hts headers cr ih =>
    have hhd : headers = parse_row l := rfl
    have hcr0 : cr = collectRowsL headers.length rest2 := rfl
    rw [hhd] at hcr0
    rw [hcr0] at ih
    intro hf H g p h' hg
    cases hscan : scanF (fuel + 1) (l :: l1 :: rest2) i h with
    | nil =>
      simp only [scanF, hh, Bool.false_eq_true, if_false, hts, if_true] at hscan
      exact List.noConfusion hscan
    | cons T ts2 =>
      rw [hscan] at H hg
      have hfacts := hscan
      simp only [scanF, hh, Bool.false_eq_true, if_false, hts, if_true] at hfacts
      rw [List.cons.injEq] at hfacts
      obtain ⟨hT, hts2⟩ := hfacts
      have hheaders : T.headers = parse_row l := by rw [← hT]
      have hrows : T.rows = (collectRowsL (parse_row l).length rest2).1 := by
        rw [← hT]
      have hstart : T.start_line = i := by rw [← hT]
      have hend2 : T.end_line + 1
          = i + 2 + (collectRowsL (parse_row l).length rest2).1.length := by
        rw [← hT]
        show i + 1 + (collectRowsL (parse_row l).length rest2).1.length + 1 = _
        omega
      have hRB : rebuiltTail (l :: l1 :: rest2) i (T :: ts2)
          = serializeLines T
            ++ rebuiltTail (collectRowsL (parse_row l).length rest2).2
                (i + 2 + (collectRowsL (parse_row l).length rest2).1.length) ts2 := by
        rw [rebuiltTail_cons_table (l :: l1 :: rest2) i T ts2 hstart, hend2,
          show i + 2 + (collectRowsL (parse_row l).length rest2).1.length - i
            = (collectRowsL (parse_row l).length rest2).1.length + 1 + 1 by omega,
          List.drop_succ_cons, List.drop_succ_cons, ← collectRowsL_snd_eq_drop]
      rw [hRB] at hg ⊢
      rw [← hts2] at hg ⊢
      have hcr2le : (collectRowsL (parse_row l).length rest2).2.length ≤ fuel := by
        have := collectRowsL_snd_length_le (parse_row l).length rest2
        simp only [List.length_cons] at hf
        omega
      have hstop := rebuiltTail_stop fuel (collectRowsL (parse_row l).length rest2).2
        (i + 2 + (collectRowsL (parse_row l).length rest2).1.length) h hcr2le
        (by
          cases hc2 : (collectRowsL (parse_row l).length rest2).2 with
          | nil => exact Or.inl rfl
          | cons x xr =>
            exact Or.inr ⟨x, xr, rfl, collectRowsL_stop (parse_row l).length rest2 x
              (by rw [hc2]; rfl)⟩)
      rw [scanF_serialized T _ g p h'
        (by rw [hheaders]; exact parse_row_ne_nil l)
        (by rw [hheaders]; exact parse_row_trim_stable l)
        (by rw [hheaders]; exact parse_row_no_pipe l)
        (by rw [hheaders, hrows]; exact collectRowsL_rows_len _ _)
        (by
          rw [hrows]
          exact fun r hr s hs => ⟨(collectRowsL_rows_cells _ _ r hr s hs).1,
            (collectRowsL_rows_cells _ _ r hr s hs).2.1⟩)
        (H T (List.mem_cons_self T ts2))
        hstop hg]
      simp only [List.map_cons]
      congr 1
      exact ih hcr2le
        (fun t ht => H t (List.mem_cons_of_mem T (hts2 ▸ ht)))
        (rebuiltTail (collectRowsL (parse_row l).length rest2).2
          (i + 2 + (collectRowsL (parse_row l).length rest2).1.length)
          (scanF fuel (collectRowsL (parse_row l).length rest2).2
            (i + 2 + (collectRowsL (parse_row l).length rest2).1.length) h)).length
        (p + 2 + T.rows.length) h' (Nat.le_refl _)
  | case6 fuel l i h hh l1 rest2 hts ih =>
    intro hf H g p h' hg
    have htsf : (is_table_line l && is_separator_line l1) = false :=
      Bool.of_not_eq_true hts
    simp only [scanF, hh, Bool.false_eq_true, if_false, hts] at H hg ⊢
    rw [rebuiltTail_cons l (l1 :: rest2) i _
      (scanF_WFt fuel (l1 :: rest2) (i + 1) h)] at hg ⊢
    have hR : ∃ x xr,
        rebuiltTail (l1 :: rest2) (i + 1) (scanF fuel (l1 :: rest2) (i + 1) h)
          = x :: xr ∧ (is_table_line l && is_separator_line x) = false := by
      cases hscan : scanF fuel (l1 :: rest2) (i + 1) h with
      | nil => exact ⟨l1, rest2, rfl, htsf⟩
      | cons t ts2 =>
        have hge : i + 1 ≤ t.start_line :=
          scanF_start_ge fuel (l1 :: rest2) (i + 1) h t
            (by rw [hscan]; exact List.mem_cons_self t ts2)
        by_cases hlt : i + 1 < t.start_line
        · refine ⟨l1, rest2.take (t.start_line - (i + 2)) ++ serializeLines t
            ++ rebuiltTail ((l1 :: rest2).drop (t.end_line + 1 - (i + 1)))
              (t.end_line + 1) ts2, ?_, htsf⟩
          simp only [rebuiltTail]
          rw [show t.start_line - (i + 1) = (t.start_line - (i + 2)) + 1 by omega,
            List.take_succ_cons, List.cons_append, List.cons_append]
        · have hstart : t.start_line = i + 1 := by omega
          obtain ⟨x0, r0, hdrop, htab, hhd⟩ :=
            scanF_first fuel (l1 :: rest2) (i + 1) h t ts2 hscan
          rw [hstart, Nat.sub_self, List.drop_zero, List.cons.injEq] at hdrop
          obtain ⟨rfl, rfl⟩ := hdrop
          refine ⟨headerLine t.headers (widthsOf t),
            sepLine t.headers.length (widthsOf t) t.alignments
              :: (t.rows.map (rowLine t.headers.length (widthsOf t))
                ++ rebuiltTail ((l1 :: rest2).drop (t.end_line + 1 - (i + 1)))
                  (t.end_line + 1) ts2), ?_, ?_⟩
          · rw [rebuiltTail_cons_table (l1 :: rest2) (i + 1) t ts2 hstart]
            simp only [serializeLines, List.cons_append, List.append_assoc]
          · have hnand : ¬(is_table_line l = true ∧ is_separator_line l1 = true) := by
              intro hand
              rw [hand.1, hand.2] at htsf
              exact Bool.noConfusion htsf
            by_cases htl : is_table_line l = true
            · have hsl1 : is_separator_line l1 = false := by
                cases hb : is_separator_line l1
                · rfl
                · exact absurd ⟨htl, hb⟩ hnand
              have hhsep : is_separator_line (headerLine t.headers (widthsOf t))
                  = false := by
                rw [is_separator_line_headerLine t.headers (widthsOf t)
                  (by rw [hhd]; exact parse_row_ne_nil l1)
                  (by rw [hhd]; exact parse_row_trim_stable l1)
                  (by rw [hhd]; exact parse_row_no_pipe l1), hhd,
                  ← is_separator_line_eq_all l1 (is_table_line_contains htab)]
                exact hsl1
              rw [hhsep, htl]
              rfl
            · have hfl : is_table_line l = false := by
                cases hb : is_table_line l
                · rfl
                · exact absurd hb htl
              rw [hfl]
              rfl
    obtain ⟨x, xr, hRx, hxf⟩ := hR
    rw [hRx] at hg ⊢
    cases g with
    | zero => simp at hg
    | succ g0 =>
      simp only [scanF, hh, Bool.false_eq_true, if_false, hxf]
      rw [← hRx]
      refine ih (by simp only [List.length_cons] at hf ⊢; omega) H g0 (p + 1) h' ?_
      rw [hRx]
      simp only [List.length_cons] at hg ⊢
      omega

/-! ### No rendered or copied line contains a newline -/

theorem noNl_cellBody (w : Nat) (s : List Char) (h : ('\n' : Char) ∉ s) :
    ('\n' : Char) ∉ cellBody w s := by
  intro hm
  rcases mem_cellBody hm with he | he
  · exact absurd he (by decide)
  · exact h he

theorem noNl_serializeLines (t : MarkdownTable)
    (hhd : ∀ s ∈ t.headers, ('\n' : Char) ∉ s)
    (hr : ∀ r ∈ t.rows, ∀ s ∈ r, ('\n' : Char) ∉ s) :
    ∀ l ∈ serializeLines t, ('\n' : Char) ∉ l := by
  intro l hl hm
  unfold serializeLines at hl
  rcases List.mem_cons.mp hl with rfl | hl
  · rw [headerLine_bodies] at hm
    rcases List.mem_cons.mp hm with he | hm2
    · exact absurd he (by decide)
    · rcases mem_joinTerm hm2 with he | ⟨p, hp, hmp⟩
      · exact absurd he (by decide)
      · obtain ⟨q, hq, rfl⟩ := List.mem_map.mp hp
        exact noNl_cellBody _ _ (hhd q.2 (snd_mem_of_mem_enum hq)) hmp
  rcases List.mem_cons.mp hl with rfl | hl
  · rw [sepLine_bodies] at hm
    rcases List.mem_cons.mp hm with he | hm2
    · exact absurd he (by decide)
    · rcases mem_joinTerm hm2 with he | ⟨p, hp, hmp⟩
      · exact absurd he (by decide)
      · obtain ⟨ci, _, rfl⟩ := List.mem_map.mp hp
        rcases mem_sepBody hmp with he | he | he <;> exact absurd he (by decide)
  · obtain ⟨r, hrr, rfl⟩ := List.mem_map.mp hl
    rw [rowLine_bodies] at hm
    rcases List.mem_cons.mp hm with he | hm2
    · exact absurd he (by decide)
    · rcases mem_joinTerm hm2 with he | ⟨p, hp, hmp⟩
      · exact absurd he (by decide)
      · obtain ⟨ci, _, rfl⟩ := List.mem_map.mp hp
        refine noNl_cellBody _ _ ?_ hmp
        by_cases hci : ci < r.length
        · exact hr r hrr _ (getD_mem hci [])
        · rw [getD_default (Nat.le_of_not_lt hci)]
          simp

theorem noNl_rebuiltTail (ts : List MarkdownTable) :
    ∀ (rest : List (List Char)) (c : Nat),
      (∀ l ∈ rest, ('\n' : Char) ∉ l) →
      (∀ t ∈ ts, ∀ l ∈ serializeLines t, ('\n' : Char) ∉ l) →
      ∀ l ∈ rebuiltTail rest c ts, ('\n' : Char) ∉ l := by
  induction ts with
  | nil =>
    intro rest c h1 _ l hl
    exact h1 l hl
  | cons t ts2 ih =>
    intro rest c h1 h2 l hl
    simp only [rebuiltTail] at hl
    rcases List.mem_append.mp hl with hl | hl
    · rcases List.mem_append.mp hl with hl | hl
      · exact h1 l (List.take_subset _ _ hl)
      · exact h2 t (List.mem_cons_self t ts2) l hl
    · exact ih (rest.drop (t.end_line + 1 - c)) (t.end_line + 1)
        (fun q hq => h1 q (List.drop_subset _ _ hq))
        (fun t2 ht2 => h2 t2 (List.mem_cons_of_mem t ht2)) l hl

/-- Line-level round trip: rescanning the lines of the rebuilt document
reproduces the headers and rows of every table of the original scan,
provided no extracted body row is separator-like. -/
theorem scan_rebuild (L : List (List Char)) (hnl : ∀ l ∈ L, ('\n' : Char) ∉ l)
    (H : ∀ t ∈ scanF L.length L 0 none, ∀ r ∈ t.rows, r.all sepCellB = false) :
    (scanF (linesOf (rebuild_document L (scanF L.length L 0 none))).length
        (linesOf (rebuild_document L (scanF L.length L 0 none))) 0 none).map
        (fun t => (t.headers, t.rows))
      = (scanF L.length L 0 none).map fun t => (t.headers, t.rows) := by
  cases hts : scanF L.length L 0 none with
  | nil =>
    cases L with
    | nil =>
      rw [show linesOf (rebuild_document [] []) = [] from rfl, scanF_nil]
    | cons a L2 =>
      simp only [rebuild_document, List.isEmpty_nil, if_true]
      rw [linesOf_intercalate (a :: L2) (by simp) hnl]
      split
      · rw [scanF_congr (((a :: L2).dropLast.map stripCR).length)
            ((a :: L2).dropLast.length) ((a :: L2).dropLast.map stripCR)
            ((a :: L2).dropLast) 0 none (Nat.le_refl _) (Nat.le_refl _)
            (forall₂_trimEq_stripCR _),
          scanF_nil_dropLast (a :: L2).length (a :: L2) 0 none (Nat.le_refl _) hts
            _ 0 none]
      · rw [scanF_congr (((a :: L2).map stripCR).length) ((a :: L2).length)
            ((a :: L2).map stripCR) (a :: L2) 0 none (Nat.le_refl _) (Nat.le_refl _)
            (forall₂_trimEq_stripCR _), hts]
  | cons t0 ts0 =>
    have hWF : WFt 0 (t0 :: ts0) := by
      rw [← hts]
      exact scanF_WFt L.length L 0 none
    have hRA : rebuildAux L 0 (t0 :: ts0)
        = joinTerm '\n' (rebuiltTail L 0 (t0 :: ts0)) := by
      rw [rebuildAux_eq (t0 :: ts0) L 0 hWF, List.drop_zero]
    have hne : rebuiltTail L 0 (t0 :: ts0) ≠ [] := rebuiltTail_cons_ne_nil L 0 t0 ts0
    have hser : ∀ t ∈ t0 :: ts0, ∀ l2 ∈ serializeLines t, ('\n' : Char) ∉ l2 := by
      intro t ht
      have hc := scanF_cells L.length L 0 none t (by rw [hts]; exact ht)
      exact noNl_serializeLines t
        (fun s hs hm =>
          let ⟨l2, hl2, hm2⟩ := (hc.1 s hs).2.2 '\n' hm
          hnl l2 hl2 hm2)
        (fun r hr s hs hm =>
          let ⟨l2, hl2, hm2⟩ := (hc.2 r hr s hs).2.2 '\n' hm
          hnl l2 hl2 hm2)
    have hRTnl : ∀ l2 ∈ rebuiltTail L 0 (t0 :: ts0), ('\n' : Char) ∉ l2 :=
      noNl_rebuiltTail (t0 :: ts0) L 0 hnl hser
    have hsim : ∀ g, (rebuiltTail L 0 (t0 :: ts0)).length ≤ g →
        (scanF g (rebuiltTail L 0 (t0 :: ts0)) 0 none).map
            (fun t => (t.headers, t.rows))
          = (t0 :: ts0).map fun t => (t.headers, t.rows) := by
      intro g hgle
      rw [← hts]
      exact scanF_sim L.length L 0 none (Nat.le_refl _) H g 0 none
        (by rw [hts]; exact hgle)
    simp only [rebuild_document, List.isEmpty_cons, Bool.false_eq_true, if_false,
      hRA]
    rw [joinTerm_getLast? '\n' _ hne]
    simp only [beq_self_eq_true, Bool.true_and]
    split
    · next hcond =>
      have hLEf : lastIsEmpty L = false := by simpa using hcond
      rw [linesOf_joinTerm_dropLast (rebuiltTail L 0 (t0 :: ts0)) hne hRTnl]
      have hlast_ne : ¬((rebuiltTail L 0 (t0 :: ts0)).getLast hne = []) := by
        intro he
        exact rebuiltTail_last_ne (t0 :: ts0) L 0 (by simp)
          (by
            intro hsome
            unfold lastIsEmpty at hLEf
            rw [hsome] at hLEf
            simp at hLEf)
          ((rebuiltTail L 0 (t0 :: ts0)).getLast hne)
          (List.getLast?_eq_getLast _ hne) he
      rw [if_neg hlast_ne,
        scanF_congr (((rebuiltTail L 0 (t0 :: ts0)).map stripCR).length)
          ((rebuiltTail L 0 (t0 :: ts0)).length)
          ((rebuiltTail L 0 (t0 :: ts0)).map stripCR)
          (rebuiltTail L 0 (t0 :: ts0)) 0 none (Nat.le_refl _) (Nat.le_refl _)
          (forall₂_trimEq_stripCR _)]
      exact hsim _ (Nat.le_refl _)
    · rw [linesOf_joinTerm (rebuiltTail L 0 (t0 :: ts0)) hRTnl,
        scanF_congr (((rebuiltTail L 0 (t0 :: ts0)).map stripCR).length)
          ((rebuiltTail L 0 (t0 :: ts0)).length)
          ((rebuiltTail L 0 (t0 :: ts0)).map stripCR)
          (rebuiltTail L 0 (t0 :: ts0)) 0 none (Nat.le_refl _) (Nat.le_refl _)
          (forall₂_trimEq_stripCR _)]
      exact hsim _ (Nat.le_refl _)

/-- C1 (amended): round-trip identity for headers and rows. For every
document, if parsing yields (lines, tables) and the document is rebuilt
with the tables unedited, then re-parsing the rebuilt text yields the
same number of tables with cell-for-cell equal headers and rows,
provided no body row of any extracted table is separator-like (all its
cells non-empty and drawn only from the characters dash and colon); a
separator-like row renders as a separator line and is dropped on
re-parse, which is the counterexample to the unconditional claim. -/
theorem c1_round_trip_headers_rows (content : List Char)
    (H : ∀ t ∈ (parse_markdown content).tables, ∀ r ∈ t.rows,
      r.all sepCellB = false) :
    (parse_markdown (rebuild_document (parse_markdown content).lines
        (parse_markdown content).tables)).tables.map
        (fun t => (t.headers, t.rows))
      = (parse_markdown content).tables.map fun t => (t.headers, t.rows) := by
  simp only [parse_markdown, scanA] at H ⊢
  exact scan_rebuild (linesOf content) (linesOf_noNl content) H

/-- C1 witness: a concrete one-table document round-trips. -/
theorem c1_witness :
    (∀ t ∈ (parse_markdown ("| A |\n|---|\n| 1 |\n".toList)).tables, ∀ r ∈ t.rows,
      r.all sepCellB = false) ∧
    (parse_markdown (rebuild_document
        (parse_markdown ("| A |\n|---|\n| 1 |\n".toList)).lines
        (parse_markdown ("| A |\n|---|\n| 1 |\n".toList)).tables)).tables.map
        (fun t => (t.headers, t.rows))
      = (parse_markdown ("| A |\n|---|\n| 1 |\n".toList)).tables.map
          fun t => (t.headers, t.rows) :=
  ⟨by decide, c1_round_trip_headers_rows ("| A |\n|---|\n| 1 |\n".toList) (by decide)⟩

/-- C1 counterexample to the unconditional claim: the body line
containing a separator-like first cell and an extra cell is collected
as the row with cells truncated to the single separator-like cell, which
serializes to a separator line and is lost on re-parse. -/
theorem c1_counterexample :
    (parse_markdown (rebuild_document
        (parse_markdown ("| H |\n| --- |\n| --- | x |".toList)).lines
        (parse_markdown ("| H |\n| --- |\n| --- | x |".toList)).tables)).tables.map
        (fun t => (t.headers, t.rows))
      ≠ (parse_markdown ("| H |\n| --- |\n| --- | x |".toList)).tables.map
          fun t => (t.headers, t.rows) := by
  decide

end MarkdownSheet
